import Mathlib

/-!
Verification of the grit storage core: a shallow embedding of the staging
index (`src/index.rs`), the tree builder (`src/tree.rs`), the blob object
model (`src/blob.rs`) and the object store (`src/database.rs`), together
with proofs about the claims on their behaviour.

Modelling conventions:
* Machine bytes are `Nat`s (with explicit `% 256` / `% 2 ^ 32` where the Rust
  code truncates); byte buffers are `List Nat`.
* A path component (Rust `OsStr` segment) is its byte list; a `PathBuf` is its
  list of components.  Rust's `Path` equality and ordering are defined on the
  component iterator, which this representation mirrors directly (faithful for
  ordinary `Normal` components, which is all the index and tree handle).
* `BTreeMap` values are modelled as association lists kept sorted by key;
  `HashMap`/`HashSet` values as canonically sorted association lists / lists
  (iteration order of the Rust hash containers is unspecified, so the model
  fixes the canonical order; all modelled uses are order-insensitive).
* SHA-1 and zlib are opaque to every claim, so they are threaded through as
  explicit function parameters rather than re-implemented.
* `panic!` / `expect` / failed `assert!` are modelled as `Option.none`.
-/

namespace Grit

/-- A path component: the raw bytes of one path segment. -/
abbrev Comp := List Nat

/-- A filesystem path as its list of components (Rust `PathBuf`). -/
abbrev PathBuf := List Comp

/-! ### Orderings

Rust derives `Ord` on `u8` numerically, on sequences lexicographically, and on
`Path` lexicographically over components.  `listCmp` is the generic
lexicographic comparison used to build all of these. -/

def natCmp (a b : Nat) : Ordering :=
  if a < b then .lt else if a = b then .eq else .gt

def listCmp (c : α → α → Ordering) : List α → List α → Ordering
  | [], [] => .eq
  | [], _ :: _ => .lt
  | _ :: _, [] => .gt
  | a :: as, b :: bs =>
    match c a b with
    | .eq => listCmp c as bs
    | o => o

/-- Byte-wise comparison of two components (Rust `OsStr` / `Vec<u8>` order). -/
def compCmp : Comp → Comp → Ordering := listCmp natCmp

/-- Component-wise path comparison (Rust `Path` ordering via `components()`). -/
def pathCmp : PathBuf → PathBuf → Ordering := listCmp compCmp

def compLt (a b : Comp) : Bool := compCmp a b == .lt

def pathLt (a b : PathBuf) : Bool := pathCmp a b == .lt

theorem natCmp_eq_iff (a b : Nat) : natCmp a b = .eq ↔ a = b := by
  unfold natCmp
  by_cases h1 : a < b
  · simp only [if_pos h1]
    constructor
    · intro h; cases h
    · intro h; omega
  · by_cases h2 : a = b
    · simp [h1, h2]
    · simp only [if_neg h1, if_neg h2]
      constructor
      · intro h; cases h
      · intro h; exact absurd h h2

theorem natCmp_gt_iff_lt (a b : Nat) : natCmp a b = .gt ↔ natCmp b a = .lt := by
  unfold natCmp
  by_cases h1 : a < b
  · have h2 : ¬ b < a := by omega
    have h3 : ¬ b = a := by omega
    simp only [if_pos h1, if_neg h2, if_neg h3]
    constructor
    · intro h; cases h
    · intro h; cases h
  · by_cases h2 : a = b
    · subst h2
      simp only [if_neg h1, if_pos rfl]
      constructor
      · intro h; cases h
      · intro h; cases h
    · have h3 : b < a := by omega
      simp [h1, h2, h3]

theorem natCmp_lt_trans {a b d : Nat} (h₁ : natCmp a b = .lt) (h₂ : natCmp b d = .lt) :
    natCmp a d = .lt := by
  unfold natCmp at *
  by_cases hab : a < b
  · by_cases hbd : b < d
    · have : a < d := by omega
      simp [this]
    · rw [if_neg hbd] at h₂
      split at h₂ <;> cases h₂
  · rw [if_neg hab] at h₁
    split at h₁ <;> cases h₁

theorem listCmp_eq_iff (c : α → α → Ordering) (hc : ∀ a b, c a b = .eq ↔ a = b) :
    ∀ as bs, listCmp c as bs = .eq ↔ as = bs := by
  intro as
  induction as with
  | nil => intro bs; cases bs <;> simp [listCmp]
  | cons a as ih =>
    intro bs
    cases bs with
    | nil => simp [listCmp]
    | cons b bs =>
      simp only [listCmp]
      cases h : c a b with
      | lt =>
        simp only [List.cons.injEq]
        constructor
        · intro hx; cases hx
        · rintro ⟨rfl, rfl⟩
          rw [(hc a a).2 rfl] at h
          cases h
      | eq =>
        have hab : a = b := (hc a b).1 h
        subst hab
        rw [ih bs]
        simp
      | gt =>
        simp only [List.cons.injEq]
        constructor
        · intro hx; cases hx
        · rintro ⟨rfl, rfl⟩
          rw [(hc a a).2 rfl] at h
          cases h

theorem listCmp_gt_iff_lt (c : α → α → Ordering)
    (hc : ∀ a b, c a b = .eq ↔ a = b) (hg : ∀ a b, c a b = .gt ↔ c b a = .lt) :
    ∀ as bs, listCmp c as bs = .gt ↔ listCmp c bs as = .lt := by
  intro as
  induction as with
  | nil => intro bs; cases bs <;> simp [listCmp]
  | cons a as ih =>
    intro bs
    cases bs with
    | nil => simp [listCmp]
    | cons b bs =>
      simp only [listCmp]
      cases h : c a b with
      | lt =>
        have hba : c b a = .gt := (hg b a).2 h
        simp [hba]
      | eq =>
        have hab : a = b := (hc a b).1 h
        subst hab
        simp only [h]
        exact ih bs
      | gt =>
        have hba : c b a = .lt := (hg a b).1 h
        simp [hba]

theorem listCmp_lt_trans (c : α → α → Ordering)
    (hc : ∀ a b, c a b = .eq ↔ a = b)
    (ht : ∀ {a b d}, c a b = .lt → c b d = .lt → c a d = .lt) :
    ∀ {as bs ds}, listCmp c as bs = .lt → listCmp c bs ds = .lt → listCmp c as ds = .lt := by
  intro as
  induction as with
  | nil =>
    intro bs ds h₁ h₂
    cases bs with
    | nil => simpa [listCmp] using h₂
    | cons b bs =>
      cases ds with
      | nil => simp [listCmp] at h₂
      | cons d ds => simp [listCmp]
  | cons a as ih =>
    intro bs ds h₁ h₂
    cases bs with
    | nil => simp [listCmp] at h₁
    | cons b bs =>
      cases ds with
      | nil => simp [listCmp] at h₂
      | cons d ds =>
        simp only [listCmp] at h₁ h₂ ⊢
        cases hab : c a b with
        | lt =>
          cases hbd : c b d with
          | lt => simp [ht hab hbd]
          | eq =>
            have : b = d := (hc b d).1 hbd
            subst this
            simp [hab]
          | gt => rw [hbd] at h₂; cases h₂
        | eq =>
          have : a = b := (hc a b).1 hab
          subst this
          rw [hab] at h₁
          cases hbd : c a d with
          | lt => simp [hbd]
          | eq =>
            rw [hbd] at h₂
            simp only [hbd]
            exact ih h₁ h₂
          | gt => rw [hbd] at h₂; cases h₂
        | gt => rw [hab] at h₁; cases h₁

theorem compCmp_eq_iff (a b : Comp) : compCmp a b = .eq ↔ a = b :=
  listCmp_eq_iff natCmp natCmp_eq_iff a b

theorem compCmp_gt_iff_lt (a b : Comp) : compCmp a b = .gt ↔ compCmp b a = .lt :=
  listCmp_gt_iff_lt natCmp natCmp_eq_iff natCmp_gt_iff_lt a b

theorem compCmp_lt_trans {a b d : Comp} :
    compCmp a b = .lt → compCmp b d = .lt → compCmp a d = .lt :=
  listCmp_lt_trans natCmp natCmp_eq_iff (fun h₁ h₂ => natCmp_lt_trans h₁ h₂)

theorem pathCmp_eq_iff (a b : PathBuf) : pathCmp a b = .eq ↔ a = b :=
  listCmp_eq_iff compCmp compCmp_eq_iff a b

theorem pathCmp_gt_iff_lt (a b : PathBuf) : pathCmp a b = .gt ↔ pathCmp b a = .lt :=
  listCmp_gt_iff_lt compCmp compCmp_eq_iff compCmp_gt_iff_lt a b

theorem pathCmp_lt_trans {a b d : PathBuf} :
    pathCmp a b = .lt → pathCmp b d = .lt → pathCmp a d = .lt :=
  listCmp_lt_trans compCmp compCmp_eq_iff (fun h₁ h₂ => compCmp_lt_trans h₁ h₂)

theorem compLt_iff (a b : Comp) : compLt a b = true ↔ compCmp a b = .lt := by
  rw [compLt]
  cases compCmp a b <;> decide

theorem pathLt_iff (a b : PathBuf) : pathLt a b = true ↔ pathCmp a b = .lt := by
  rw [pathLt]
  cases pathCmp a b <;> decide

theorem pathLt_tricho (a b : PathBuf) : pathLt a b = true ∨ a = b ∨ pathLt b a = true := by
  cases h : pathCmp a b with
  | lt => exact Or.inl ((pathLt_iff a b).2 h)
  | eq => exact Or.inr (Or.inl ((pathCmp_eq_iff a b).1 h))
  | gt => exact Or.inr (Or.inr ((pathLt_iff b a).2 ((pathCmp_gt_iff_lt a b).1 h)))

theorem pathLt_trans {a b d : PathBuf} (h₁ : pathLt a b = true) (h₂ : pathLt b d = true) :
    pathLt a d = true :=
  (pathLt_iff a d).2 (pathCmp_lt_trans ((pathLt_iff a b).1 h₁) ((pathLt_iff b d).1 h₂))

theorem pathLt_asymm {a b : PathBuf} (h : pathLt a b = true) : ¬ pathLt b a = true := by
  intro h'
  have := pathCmp_lt_trans ((pathLt_iff a b).1 h) ((pathLt_iff b a).1 h')
  rw [(pathCmp_eq_iff a a).2 rfl] at this
  cases this

theorem pathLt_irrefl (a : PathBuf) : pathLt a a = false := by
  by_contra h
  simp only [Bool.not_eq_false] at h
  exact pathLt_asymm h h

theorem compLt_tricho (a b : Comp) : compLt a b = true ∨ a = b ∨ compLt b a = true := by
  cases h : compCmp a b with
  | lt => exact Or.inl ((compLt_iff a b).2 h)
  | eq => exact Or.inr (Or.inl ((compCmp_eq_iff a b).1 h))
  | gt => exact Or.inr (Or.inr ((compLt_iff b a).2 ((compCmp_gt_iff_lt a b).1 h)))

theorem compLt_trans {a b d : Comp} (h₁ : compLt a b = true) (h₂ : compLt b d = true) :
    compLt a d = true :=
  (compLt_iff a d).2 (compCmp_lt_trans ((compLt_iff a b).1 h₁) ((compLt_iff b d).1 h₂))

theorem compLt_asymm {a b : Comp} (h : compLt a b = true) : ¬ compLt b a = true := by
  intro h'
  have := compCmp_lt_trans ((compLt_iff a b).1 h) ((compLt_iff b a).1 h')
  rw [(compCmp_eq_iff a a).2 rfl] at this
  cases this

/-! ### Generic sorted-association-list insertion

`BTreeMap::insert` on the sorted entry list: place the new element before the
first strictly greater key, replacing an equal key in place. -/

def insertByKey (lt : κ → κ → Bool) (key : α → κ) [DecidableEq κ] (a : α) :
    List α → List α
  | [] => [a]
  | x :: xs =>
    if lt (key a) (key x) then a :: x :: xs
    else if key a = key x then a :: xs
    else x :: insertByKey lt key a xs

theorem mem_insertByKey (lt : κ → κ → Bool) (key : α → κ) [DecidableEq κ]
    (a : α) (l : List α) : ∀ x ∈ insertByKey lt key a l, x = a ∨ x ∈ l := by
  induction l with
  | nil =>
    intro x hx
    simp only [insertByKey, List.mem_singleton] at hx
    exact Or.inl hx
  | cons y ys ih =>
    intro x hx
    simp only [insertByKey] at hx
    split at hx
    · rcases List.mem_cons.1 hx with h | h
      · exact Or.inl h
      · exact Or.inr h
    · split at hx
      · rcases List.mem_cons.1 hx with h | h
        · exact Or.inl h
        · exact Or.inr (List.mem_cons_of_mem _ h)
      · rcases List.mem_cons.1 hx with h | h
        · exact Or.inr (h ▸ List.mem_cons_self _ _)
        · rcases ih x h with h' | h'
          · exact Or.inl h'
          · exact Or.inr (List.mem_cons_of_mem _ h')

theorem insertByKey_pairwise (lt : κ → κ → Bool) (key : α → κ) [DecidableEq κ]
    (htricho : ∀ x y : κ, lt x y = true ∨ x = y ∨ lt y x = true)
    (htrans : ∀ {x y z : κ}, lt x y = true → lt y z = true → lt x z = true)
    (a : α) (l : List α)
    (hl : l.Pairwise (fun x y => lt (key x) (key y) = true)) :
    (insertByKey lt key a l).Pairwise (fun x y => lt (key x) (key y) = true) := by
  induction l with
  | nil => simp [insertByKey]
  | cons y ys ih =>
    rcases hl with - | ⟨hy, hys⟩
    simp only [insertByKey]
    split
    · next hlt =>
      constructor
      · intro z hz
        rcases List.mem_cons.1 hz with h | h
        · subst h; exact hlt
        · exact htrans hlt (hy z h)
      · exact List.Pairwise.cons hy hys
    · split
      · next hnlt heq =>
        constructor
        · intro z hz
          rw [heq]
          exact hy z hz
        · exact hys
      · next hnlt hneq =>
        constructor
        · intro z hz
          rcases mem_insertByKey lt key a ys z hz with h | h
          · rw [h]
            rcases htricho (key y) (key a) with h' | h' | h'
            · exact h'
            · exact absurd h'.symm hneq
            · exact absurd h' hnlt
          · exact hy z h
        · exact ih hys

theorem insertByKey_append (lt : κ → κ → Bool) (key : α → κ) [DecidableEq κ]
    (hasym : ∀ {x y : κ}, lt x y = true → ¬ lt y x = true)
    (a : α) (l : List α) (h : ∀ x ∈ l, lt (key x) (key a) = true) :
    insertByKey lt key a l = l ++ [a] := by
  induction l with
  | nil => simp [insertByKey]
  | cons y ys ih =>
    have hy : lt (key y) (key a) = true := h y (List.mem_cons_self _ _)
    have h1 : ¬ lt (key a) (key y) = true := hasym hy
    have h2 : ¬ key a = key y := by
      intro he
      rw [he] at hy
      exact hasym hy hy
    simp only [insertByKey, if_neg h1, if_neg h2, List.cons_append, List.cons.injEq, true_and]
    exact ih (fun x hx => h x (List.mem_cons_of_mem _ hx))

theorem foldl_insertByKey_sorted (lt : κ → κ → Bool) (key : α → κ) [DecidableEq κ]
    (hasym : ∀ {x y : κ}, lt x y = true → ¬ lt y x = true) :
    ∀ (l acc : List α),
      (acc ++ l).Pairwise (fun x y => lt (key x) (key y) = true) →
      l.foldl (fun m e => insertByKey lt key e m) acc = acc ++ l := by
  intro l
  induction l with
  | nil => intro acc _; simp
  | cons e es ih =>
    intro acc hp
    have he : ∀ x ∈ acc, lt (key x) (key e) = true := by
      intro x hx
      have := (List.pairwise_append.1 hp).2.2 x hx e (List.mem_cons_self _ _)
      exact this
    have step : insertByKey lt key e acc = acc ++ [e] :=
      insertByKey_append lt key hasym e acc he
    simp only [List.foldl_cons, step]
    have : (acc ++ [e]) ++ es = acc ++ e :: es := by simp
    rw [ih (acc ++ [e]) (by rw [this]; exact hp)]
    simp

/-! ### The staging index (`src/index.rs`)

`Index` carries the `BTreeMap<PathBuf, IndexEntry>` of entries (modelled as
the sorted list of entries, keyed by `IndexEntry.path`, exactly the map's
iteration order) and the derived `HashMap<PathBuf, HashSet<PathBuf>>`
`parents_to_children` (modelled as an association list sorted by key, with
each child set as a sorted list).  The Rust struct's extra `path : PathBuf`
field only records where `write_updates` writes the file; it plays no part in
any claim and is left out of the model (`Index::new`'s read is modelled as
taking the read result directly). -/

structure IndexMetadata where
  ctime : Nat
  ctime_nsec : Nat
  mtime : Nat
  mtime_nsec : Nat
  dev : Nat
  ino : Nat
  mode : Nat
  uid : Nat
  gid : Nat
  size : Nat
deriving DecidableEq, Repr

structure IndexEntry where
  path : PathBuf
  oid : List Nat
  metadata : IndexMetadata
deriving DecidableEq, Repr

/-- The auxiliary directory-to-children map. -/
abbrev ParentsMap := List (PathBuf × List PathBuf)

structure Index where
  entries : List IndexEntry
  parents_to_children : ParentsMap
deriving DecidableEq, Repr

def emptyIndex : Index := ⟨[], []⟩

/-- Rust `Tree::get_parent_directories`: `path.ancestors()`, dropping the path
itself and the empty ancestor, reversed to root-first order, then taking each
ancestor's `file_name()`.  For components `[c₁, …, cₙ]` this yields the
single-component paths `[c₁], …, [c_(n-1)]` — the bare component names, not
the full ancestor paths. -/
def get_parent_directories (p : PathBuf) : List PathBuf :=
  p.dropLast.map (fun c => [c])

def entriesGet (p : PathBuf) (l : List IndexEntry) : Option IndexEntry :=
  l.find? (fun e => e.path == p)

def entriesInsert (e : IndexEntry) (l : List IndexEntry) : List IndexEntry :=
  insertByKey pathLt IndexEntry.path e l

def cacheGet (p : PathBuf) (c : ParentsMap) : Option (List PathBuf) :=
  (c.find? (fun kv => kv.1 == p)).map Prod.snd

def childInsert (child : PathBuf) (cs : List PathBuf) : List PathBuf :=
  insertByKey pathLt id child cs

/-- One `parents_to_children` update step: `HashSet::insert(child)` under key
`parent`, creating the singleton set if the key is absent (the shared
`match get_mut … Some/None` block of `store_entry` and
`construct_parents_cache`). -/
def cacheAddChild (parent child : PathBuf) (c : ParentsMap) : ParentsMap :=
  if (cacheGet parent c).isSome then
    c.map (fun kv => if kv.1 = parent then (kv.1, childInsert child kv.2) else kv)
  else
    insertByKey pathLt Prod.fst (parent, [child]) c

/-- Rust `Index::construct_parents_cache`. -/
def construct_parents_cache (entries : List IndexEntry) : ParentsMap :=
  entries.foldl
    (fun c e => (get_parent_directories e.path).foldl
      (fun c' pd => cacheAddChild pd e.path c') c)
    []

/-- Rust `Index::remove_entry`.  Note the `children.is_empty()` test happens
before the child is removed from the set, exactly as in the source. -/
def remove_entry (idx : Index) (p : PathBuf) : Index :=
  match entriesGet p idx.entries with
  | none => idx
  | some entry =>
    let entry_path := entry.path
    let entries' := idx.entries.filter (fun e => e.path != entry_path)
    let cache' := (get_parent_directories entry_path).foldl
      (fun c parent =>
        match cacheGet parent c with
        | none => c
        | some children =>
          if children = [] then
            c.filter (fun kv => kv.1 != parent)
          else
            c.map (fun kv =>
              if kv.1 = parent then (kv.1, kv.2.filter (fun q => q != entry_path)) else kv))
      idx.parents_to_children
    ⟨entries', cache'⟩

/-- Rust `Index::remove_children` (the cloned `HashSet` is iterated in the
model's canonical sorted order; every removal is order-insensitive). -/
def remove_children (idx : Index) (p : PathBuf) : Index :=
  match cacheGet p idx.parents_to_children with
  | none => idx
  | some children => children.foldl remove_entry idx

/-- Rust `Index::discard_conflicts`. -/
def discard_conflicts (idx : Index) (p : PathBuf) : Index :=
  remove_children ((get_parent_directories p).foldl remove_entry idx) p

/-- Rust `Index::store_entry`. -/
def store_entry (idx : Index) (e : IndexEntry) : Index :=
  ⟨entriesInsert e idx.entries,
   (get_parent_directories e.path).foldl
     (fun c pd => cacheAddChild pd e.path c) idx.parents_to_children⟩

/-- Rust `Index::add`. -/
def Index.add (idx : Index) (p : PathBuf) (oid : List Nat) (md : IndexMetadata) : Index :=
  store_entry (discard_conflicts idx p) ⟨p, oid, md⟩

/-- Rust `Index::get_filepaths` (the `BTreeMap` key list, in map order). -/
def get_filepaths (idx : Index) : List PathBuf :=
  idx.entries.map (fun e => e.path)

/-- Fold a list of `add` calls (path, oid, metadata) over an index. -/
def applyAdds (idx : Index) (ops : List (PathBuf × List Nat × IndexMetadata)) : Index :=
  ops.foldl (fun i op => i.add op.1 op.2.1 op.2.2) idx

/-! Concrete inputs for the example-based claims. -/

def asciiBytes (s : String) : List Nat := s.data.map Char.toNat

def mdZero : IndexMetadata := ⟨0, 0, 0, 0, 0, 0, 0, 0, 0, 0⟩

def zeroOid : List Nat := List.replicate 20 0

/-- C5: starting from an empty index, adding `alice.txt`, `bob.txt`,
`alice.txt/nested.txt` in that order leaves exactly the tracked set
`{alice.txt/nested.txt, bob.txt}`; and adding `alice.txt`, `nested/bob.txt`,
`nested/inner/claire.txt`, `nested` in that order leaves exactly the tracked
set `{alice.txt, nested}` (listed here in the index's sorted key order). -/
theorem add_eviction_concrete_cases :
    get_filepaths (applyAdds emptyIndex
      [([asciiBytes "alice.txt"], zeroOid, mdZero),
       ([asciiBytes "bob.txt"], zeroOid, mdZero),
       ([asciiBytes "alice.txt", asciiBytes "nested.txt"], zeroOid, mdZero)]) =
      [[asciiBytes "alice.txt", asciiBytes "nested.txt"], [asciiBytes "bob.txt"]]
    ∧ get_filepaths (applyAdds emptyIndex
      [([asciiBytes "alice.txt"], zeroOid, mdZero),
       ([asciiBytes "nested", asciiBytes "bob.txt"], zeroOid, mdZero),
       ([asciiBytes "nested", asciiBytes "inner", asciiBytes "claire.txt"], zeroOid, mdZero),
       ([asciiBytes "nested"], zeroOid, mdZero)]) =
      [[asciiBytes "alice.txt"], [asciiBytes "nested"]] := by
  constructor
  · decide
  · decide

/-- C2 is violated by the code: adding `a/b` and then `a/b/c` leaves BOTH
tracked, even though `a/b` is a proper ancestor directory of `a/b/c` —
`discard_conflicts` removes entries at the bare component names `a` and `b`
(what `get_parent_directories` returns), never at the ancestor path `a/b`.
The final conjunct exhibits the ancestor relation. -/
theorem ancestor_file_not_evicted :
    get_filepaths (applyAdds emptyIndex
      [([asciiBytes "a", asciiBytes "b"], zeroOid, mdZero),
       ([asciiBytes "a", asciiBytes "b", asciiBytes "c"], zeroOid, mdZero)]) =
      [[asciiBytes "a", asciiBytes "b"], [asciiBytes "a", asciiBytes "b", asciiBytes "c"]]
    ∧ [asciiBytes "a", asciiBytes "b"] ++ [asciiBytes "c"]
        = [asciiBytes "a", asciiBytes "b", asciiBytes "c"] := by
  constructor
  · decide
  · decide

/-- C3 is violated by the code: after adding `a/b` and then `a` (which evicts
`a/b`), `parents_to_children` still holds the key `a` with an empty child
set, while recomputing the structure from the remaining entries yields no
keys at all — `remove_entry` tests `children.is_empty()` before removing the
child, so a set emptied by a removal is never dropped. -/
theorem parents_cache_stale_after_add :
    (applyAdds emptyIndex
      [([asciiBytes "a", asciiBytes "b"], zeroOid, mdZero),
       ([asciiBytes "a"], zeroOid, mdZero)]).parents_to_children
    ≠ construct_parents_cache (applyAdds emptyIndex
      [([asciiBytes "a", asciiBytes "b"], zeroOid, mdZero),
       ([asciiBytes "a"], zeroOid, mdZero)]).entries := by
  decide


/-! ### Blobs (`src/blob.rs`)

`Blob::new` builds the canonical encoding `"blob " ++ decimal(len) ++ NUL ++
bytes` and hashes exactly it.  The executable flag never enters the blob
value: `is_executable` asks the filesystem about `path` each time it is
called, which the model threads as an explicit `execOf` predicate where the
tree builder needs it. -/

structure Blob where
  path : PathBuf
  oid : List Nat
  content : List Nat
deriving DecidableEq, Repr

/-- Decimal ASCII digits of a number, most significant first. -/
def decimalBytes (n : Nat) : List Nat := (Nat.toDigits 10 n).map Char.toNat

/-- Rust `Blob::new(bytes, path)`; `hash` stands for `Sha1::digest`. -/
def Blob.new (hash : List Nat → List Nat) (bytes : List Nat) (path : PathBuf) : Blob :=
  let content := asciiBytes "blob " ++ decimalBytes bytes.length ++ [0] ++ bytes
  ⟨path, hash content, content⟩

/-- C8: a blob's canonical encoding is `"blob " + decimal(length) + NUL +
bytes`, its address is the digest of exactly that encoding, and the address
is a function of the content bytes alone — equal content under different
paths gives equal addresses (the executable flag is derived from the path at
encoding time and never enters the hash at all). -/
theorem blob_encoding_and_address (hash : List Nat → List Nat) (bytes : List Nat) :
    (∀ p, (Blob.new hash bytes p).content
        = asciiBytes "blob " ++ decimalBytes bytes.length ++ [0] ++ bytes)
    ∧ (∀ p, (Blob.new hash bytes p).oid = hash ((Blob.new hash bytes p).content))
    ∧ (∀ p₁ p₂, (Blob.new hash bytes p₁).oid = (Blob.new hash bytes p₂).oid) := by
  refine ⟨fun p => rfl, fun p => rfl, fun p₁ p₂ => rfl⟩

/-! ### The object store (`src/database.rs`)

The filesystem is modelled as a map from the two-level object path (the pair
of the first-two-hex-characters directory name and the remaining-hex-chars
file name) to file contents; `create_dir_all` has no observable effect in
this view.  `compress` stands for the zlib encoder. -/

/-- Lowercase hex digits of one byte, as in `Digest::to_string`. -/
def hexDigit (n : Nat) : Nat := if n < 10 then 48 + n else 87 + n

def hexByte (b : Nat) : List Nat := [hexDigit (b / 16), hexDigit (b % 16)]

/-- The 40-character hex form of a 20-byte digest. -/
def digestHex (oid : List Nat) : List Nat := oid.flatMap hexByte

/-- The two-level `objects/<first 2 hex>/<remaining hex>` location. -/
def objectPath (oid : List Nat) : List Nat × List Nat :=
  ((digestHex oid).take 2, (digestHex oid).drop 2)

/-- The object store's directory as a map from object path to file bytes. -/
def ObjectsDir := List Nat × List Nat → Option (List Nat)

/-- Rust `Database::write_object`: derive the two-level path; if the file
already exists (`ErrorKind::AlreadyExists`), return without writing;
otherwise write the compressed content. -/
def write_object (compress : List Nat → List Nat) (fs : ObjectsDir)
    (oid content : List Nat) : ObjectsDir :=
  match fs (objectPath oid) with
  | some _ => fs
  | none => fun q => if q = objectPath oid then some (compress content) else fs q

/-- C7: `store` writes an object at `objects/<first 2 hex chars>/<remaining
hex chars>` of its address; a second store of the same object returns success
without rewriting, so the directory is left completely unchanged and exactly
the first write's bytes sit at that location. -/
theorem write_object_idempotent (compress : List Nat → List Nat) (fs : ObjectsDir)
    (oid content : List Nat) (hfree : fs (objectPath oid) = none) :
    (write_object compress fs oid content) (objectPath oid) = some (compress content)
    ∧ write_object compress (write_object compress fs oid content) oid content
        = write_object compress fs oid content
    ∧ ∀ q, q ≠ objectPath oid → (write_object compress fs oid content) q = fs q := by
  have h1 : (write_object compress fs oid content) (objectPath oid) = some (compress content) := by
    unfold write_object
    rw [hfree]
    simp
  have hsome : ∀ (g : ObjectsDir) v, g (objectPath oid) = some v →
      write_object compress g oid content = g := by
    intro g v hg
    unfold write_object
    rw [hg]
  refine ⟨h1, hsome _ _ h1, ?_⟩
  · intro q hq
    unfold write_object
    rw [hfree]
    simp [hq]

/-- Witness for C7 at a concrete store state and object. -/
theorem write_object_idempotent_witness :
    ((fun _ => none : ObjectsDir) (objectPath (List.replicate 20 0)) = none)
    ∧ (write_object id (fun _ => none) (List.replicate 20 0) [1, 2, 3])
        (objectPath (List.replicate 20 0)) = some (id [1, 2, 3])
    ∧ write_object id (write_object id (fun _ => none) (List.replicate 20 0) [1, 2, 3])
        (List.replicate 20 0) [1, 2, 3]
      = write_object id (fun _ => none) (List.replicate 20 0) [1, 2, 3] :=
  ⟨rfl,
   (write_object_idempotent id (fun _ => none) (List.replicate 20 0) [1, 2, 3] rfl).1,
   (write_object_idempotent id (fun _ => none) (List.replicate 20 0) [1, 2, 3] rfl).2.1⟩


/-! ### Index serialization (`IndexEntry::to_data`, `Index::write_updates`,
`Index::read_header`, `IndexEntry::read_entry`, `Index::new`) -/

def u32be (n : Nat) : List Nat :=
  [n / 16777216 % 256, n / 65536 % 256, n / 256 % 256, n % 256]

def u16be (n : Nat) : List Nat := [n / 256 % 256, n % 256]

def mdFields (m : IndexMetadata) : List Nat :=
  [m.ctime, m.ctime_nsec, m.mtime, m.mtime_nsec, m.dev, m.ino, m.mode, m.uid,
   m.gid, m.size]

/-- The byte string of a path: components joined by `/` (Rust
`to_string_lossy().as_bytes()`, identity on the ASCII paths the
well-formedness predicate admits). -/
def joinComps : PathBuf → List Nat
  | [] => []
  | [c] => c
  | c :: cs => c ++ 47 :: joinComps cs

/-- Rust `IndexEntry::to_data`: ten big-endian u32 fields, the 20 oid bytes,
the 2-byte flags `min(pathLen, 0xfff)`, the path bytes, then zero padding up
to a multiple of 8 (always at least one zero, which doubles as the NUL
terminator). -/
def to_data (e : IndexEntry) : List Nat :=
  let pb := joinComps e.path
  let v := (mdFields e.metadata).flatMap u32be ++ e.oid
    ++ u16be (min pb.length 4095) ++ pb
  v ++ List.replicate (8 - v.length % 8) 0

/-- Rust `Index::get_header`: `DIRC`, version 2, entry count (truncated to
u32, as the `as u32` cast does). -/
def get_header (entries : List IndexEntry) : List Nat :=
  asciiBytes "DIRC" ++ u32be 2 ++ u32be entries.length

/-- Rust `Index::write_updates`: header, all entries in map order, then the
digest of everything so far. -/
def write_updates (hash : List Nat → List Nat) (idx : Index) : List Nat :=
  let data := get_header idx.entries ++ idx.entries.flatMap to_data
  data ++ hash data

/-- `read_exact` into a `k`-byte buffer: take `k` bytes or fail. -/
def readBytes (k : Nat) (input : List Nat) : Option (List Nat × List Nat) :=
  if k ≤ input.length then some (input.take k, input.drop k) else none

/-- Big-endian value of a byte string. -/
def beVal (bs : List Nat) : Nat := bs.foldl (fun acc b => acc * 256 + b) 0

/-- Rust `IndexMetadata::from([u8; 40])`: ten consecutive big-endian u32s. -/
def readMetadata (bs : List Nat) : IndexMetadata :=
  ⟨beVal ((bs.drop 0).take 4), beVal ((bs.drop 4).take 4),
   beVal ((bs.drop 8).take 4), beVal ((bs.drop 12).take 4),
   beVal ((bs.drop 16).take 4), beVal ((bs.drop 20).take 4),
   beVal ((bs.drop 24).take 4), beVal ((bs.drop 28).take 4),
   beVal ((bs.drop 32).take 4), beVal ((bs.drop 36).take 4)⟩

def splitPathAux : List Nat → List Nat → List Comp
  | [], cur => [cur.reverse]
  | b :: rest, cur =>
    if b = 47 then cur.reverse :: splitPathAux rest []
    else splitPathAux rest (b :: cur)

/-- Rust `PathBuf::from(string)` viewed through `components()`: split the
byte string on `/`, dropping empty and `.` pieces exactly as the `Components`
iterator normalises them. -/
def splitPath (bs : List Nat) : PathBuf :=
  (splitPathAux bs []).filter (fun c => c != ([] : List Nat) && c != [46])

/-- Rust `IndexEntry::read_entry`: fields, oid, flags; then either a
known-length path plus its NUL, or (at the flags cap) a scan to the NUL; then
the zero padding up to the 8-byte block.  Rust computes `num_bytes_consumed`
as the cursor-position delta `end - start`; the reads before the path portion
always consume 62 bytes, so that delta is `62 +` the bytes consumed for the
path portion, which is how the model accounts it: `len + 1` in the
known-length branch (the path plus its NUL), and `min (scanned + 1)
available` in the scan branch (the scan consumes the terminating NUL only if
one is present before the end of input). -/
def read_entry (input : List Nat) : Option (IndexEntry × List Nat) := do
  let (fieldBytes, r1) ← readBytes 40 input
  let (sha, r2) ← readBytes 20 r1
  let (fl, r3) ← readBytes 2 r2
  let (pbytes, pconsumed, r5) ←
    if beVal fl < 4095 then do
      let (pb, r4) ← readBytes (beVal fl) r3
      let (nl, r4b) ← readBytes 1 r4
      if nl = [0] then some (pb, beVal fl + 1, r4b) else none
    else
      some (r3.takeWhile (fun b => b != 0),
            min ((r3.takeWhile (fun b => b != 0)).length + 1) r3.length,
            r3.drop ((r3.takeWhile (fun b => b != 0)).length + 1))
  let (pad, r6) ← readBytes ((8 - (62 + pconsumed) % 8) % 8) r5
  if pad.all (fun b => b == 0) then
    some (⟨splitPath pbytes, sha, readMetadata fieldBytes⟩, r6)
  else none

def readEntriesN : Nat → List Nat → Option (List IndexEntry × List Nat)
  | 0, input => some ([], input)
  | n + 1, input => do
    let (e, rest) ← read_entry input
    let (es, rest') ← readEntriesN n rest
    some (e :: es, rest')

/-- Rust `Index::read_header`: signature, version, entry count. -/
def read_header (input : List Nat) : Option (Nat × List Nat) := do
  let (sig, r1) ← readBytes 4 input
  if sig = asciiBytes "DIRC" then
    let (ver, r2) ← readBytes 4 r1
    if beVal ver = 2 then
      let (len, r3) ← readBytes 4 r2
      some (beVal len, r3)
    else none
  else none

/-- The `Ok` branch of Rust `Index::new`: parse the header, that many
entries (collected into the `BTreeMap`), the trailing digest, check it
against the digest of everything before it, and rebuild the parents cache. -/
def loadIndex (hash : List Nat → List Nat) (buf : List Nat) : Option Index := do
  let (n, r1) ← read_header buf
  let (es, r2) ← readEntriesN n r1
  let entries := es.foldl (fun m e => entriesInsert e m) []
  let (sha, r3) ← readBytes 20 r2
  let bytesToHash := buf.take (buf.length - r3.length - 20)
  if hash bytesToHash = sha then
    some ⟨entries, construct_parents_cache entries⟩
  else none

/-- The possible failure kinds of `std::fs::read`, as far as any claim cares:
the `Err(_)` arm of `Index::new` is a catch-all. -/
inductive IOErrorKind where
  | notFound
  | permissionDenied
  | isADirectory
  | otherError
deriving DecidableEq

/-- Rust `Index::new`, with the `std::fs::read` result passed in. -/
def Index.new (hash : List Nat → List Nat)
    (readResult : Except IOErrorKind (List Nat)) : Option Index :=
  match readResult with
  | .error _ => some emptyIndex
  | .ok buf => loadIndex hash buf

/-- C9: `Index::new` returns an empty index whenever reading the index file
fails for any reason whatsoever — the `Err(_)` arm matches every error kind,
so a permission error or the path being a directory also silently yields the
empty index rather than surfacing an error. -/
theorem index_new_empty_on_any_read_error (hash : List Nat → List Nat)
    (e : IOErrorKind) :
    Index.new hash (Except.error e) = some emptyIndex
    ∧ (emptyIndex.entries = [] ∧ emptyIndex.parents_to_children = []) :=
  ⟨rfl, rfl, rfl⟩

/-- C4 as stated is false: after adding `a.b` and `a/c`, the index lists
`a/c` before `a.b` (the `BTreeMap` compares paths component-wise), but in
byte-wise string order `a.b` sorts before `a/c` (`0x2E < 0x2F`), so the
returned sequence is not byte-wise sorted, not even weakly. -/
theorem filepaths_not_bytewise_sorted :
    ¬ List.Pairwise (fun a b => compCmp a b ≠ Ordering.gt)
      (List.map joinComps (get_filepaths (applyAdds emptyIndex
        [([asciiBytes "a.b"], zeroOid, mdZero),
         ([asciiBytes "a", asciiBytes "c"], zeroOid, mdZero)]))) := by
  decide


/-! ### Sortedness of the entries list under every operation (for C4/C1) -/

/-- The entries list is strictly sorted by path. -/
def EntriesSorted (l : List IndexEntry) : Prop :=
  l.Pairwise (fun a b => pathLt a.path b.path = true)

theorem entriesInsert_sorted {e : IndexEntry} {l : List IndexEntry}
    (h : EntriesSorted l) : EntriesSorted (entriesInsert e l) :=
  insertByKey_pairwise pathLt IndexEntry.path pathLt_tricho
    (fun h₁ h₂ => pathLt_trans h₁ h₂) e l h

theorem mem_entriesInsert {e x : IndexEntry} {l : List IndexEntry}
    (h : x ∈ entriesInsert e l) : x = e ∨ x ∈ l :=
  mem_insertByKey pathLt IndexEntry.path e l x h

theorem remove_entry_entries_sub {idx : Index} {p : PathBuf} :
    ∀ x ∈ (remove_entry idx p).entries, x ∈ idx.entries := by
  intro x hx
  unfold remove_entry at hx
  rcases h : entriesGet p idx.entries with _ | e
  · rw [h] at hx
    exact hx
  · rw [h] at hx
    simp only at hx
    exact List.mem_of_mem_filter hx

theorem remove_entry_sorted {idx : Index} {p : PathBuf}
    (h : EntriesSorted idx.entries) : EntriesSorted (remove_entry idx p).entries := by
  unfold remove_entry
  rcases hg : entriesGet p idx.entries with _ | e
  · exact h
  · exact h.sublist (List.filter_sublist _)

theorem foldl_remove_entry_sub {l : List PathBuf} :
    ∀ {idx : Index}, ∀ x ∈ (l.foldl remove_entry idx).entries, x ∈ idx.entries := by
  induction l with
  | nil => intro idx x hx; exact hx
  | cons p ps ih =>
    intro idx x hx
    simp only [List.foldl_cons] at hx
    exact remove_entry_entries_sub _ (ih _ hx)

theorem foldl_remove_entry_sorted {l : List PathBuf} :
    ∀ {idx : Index}, EntriesSorted idx.entries →
      EntriesSorted ((l.foldl remove_entry idx).entries) := by
  induction l with
  | nil => intro idx h; exact h
  | cons p ps ih =>
    intro idx h
    simp only [List.foldl_cons]
    exact ih (remove_entry_sorted h)

theorem remove_children_sub {idx : Index} {p : PathBuf} :
    ∀ x ∈ (remove_children idx p).entries, x ∈ idx.entries := by
  intro x hx
  unfold remove_children at hx
  rcases h : cacheGet p idx.parents_to_children with _ | cs
  · rw [h] at hx; exact hx
  · rw [h] at hx
    exact foldl_remove_entry_sub _ hx

theorem remove_children_sorted {idx : Index} {p : PathBuf}
    (h : EntriesSorted idx.entries) : EntriesSorted (remove_children idx p).entries := by
  unfold remove_children
  rcases hg : cacheGet p idx.parents_to_children with _ | cs
  · exact h
  · exact foldl_remove_entry_sorted h

theorem discard_conflicts_sub {idx : Index} {p : PathBuf} :
    ∀ x ∈ (discard_conflicts idx p).entries, x ∈ idx.entries := by
  intro x hx
  unfold discard_conflicts at hx
  exact foldl_remove_entry_sub _ (remove_children_sub _ hx)

theorem discard_conflicts_sorted {idx : Index} {p : PathBuf}
    (h : EntriesSorted idx.entries) : EntriesSorted (discard_conflicts idx p).entries := by
  unfold discard_conflicts
  exact remove_children_sorted (foldl_remove_entry_sorted h)

theorem add_entries_sub {idx : Index} {p : PathBuf} {oid : List Nat}
    {md : IndexMetadata} :
    ∀ x ∈ (idx.add p oid md).entries, x = ⟨p, oid, md⟩ ∨ x ∈ idx.entries := by
  intro x hx
  unfold Index.add store_entry at hx
  simp only at hx
  rcases mem_entriesInsert hx with h | h
  · exact Or.inl h
  · exact Or.inr (discard_conflicts_sub _ h)

theorem add_sorted {idx : Index} {p : PathBuf} {oid : List Nat} {md : IndexMetadata}
    (h : EntriesSorted idx.entries) : EntriesSorted (idx.add p oid md).entries := by
  unfold Index.add store_entry
  exact entriesInsert_sorted (discard_conflicts_sorted h)

theorem applyAdds_sorted (ops : List (PathBuf × List Nat × IndexMetadata)) :
    ∀ {idx : Index}, EntriesSorted idx.entries →
      EntriesSorted (applyAdds idx ops).entries := by
  induction ops with
  | nil => intro idx h; exact h
  | cons op ops ih =>
    intro idx h
    simp only [applyAdds, List.foldl_cons]
    exact ih (add_sorted h)

/-- C4 amended: for every index state reachable by `add` calls, the paths
returned by `get_filepaths` are in strictly increasing lexicographic order on
the component lists (byte-wise within each component) — the `BTreeMap`'s
`Path` order, not the byte-wise order of the joined path strings — and the
persisted byte stream serializes the entries between header and trailing
digest in exactly that order (`get_filepaths` is their path sequence). -/
theorem filepaths_sorted_componentwise (ops : List (PathBuf × List Nat × IndexMetadata))
    (hash : List Nat → List Nat) :
    List.Pairwise (fun a b => pathLt a b = true)
      (get_filepaths (applyAdds emptyIndex ops))
    ∧ write_updates hash (applyAdds emptyIndex ops)
      = get_header (applyAdds emptyIndex ops).entries
        ++ (applyAdds emptyIndex ops).entries.flatMap to_data
        ++ hash (get_header (applyAdds emptyIndex ops).entries
            ++ (applyAdds emptyIndex ops).entries.flatMap to_data)
    ∧ get_filepaths (applyAdds emptyIndex ops)
      = ((applyAdds emptyIndex ops).entries).map (fun e => e.path) := by
  refine ⟨?_, ?_, rfl⟩
  · exact List.Pairwise.map _ (fun a b h => h) (applyAdds_sorted ops List.Pairwise.nil)
  · simp [write_updates, List.append_assoc]


/-! ### Round-trip of the index file (C1)

Well-formedness of the inputs: the round trip needs paths whose components
are ordinary non-empty ASCII names (no NUL, no `/`, not `.` or `..` — exactly
the values on which the byte-level file format and the `PathBuf` component
model are faithful to the Rust code), a 20-byte oid, and u32-sized metadata
fields (they are `u32` in Rust). -/

def compWF (c : Comp) : Prop :=
  c ≠ [] ∧ c ≠ [46] ∧ c ≠ [46, 46] ∧ ∀ b ∈ c, 0 < b ∧ b < 128 ∧ b ≠ 47

def pathWF (p : PathBuf) : Prop := ∀ c ∈ p, compWF c

def mdWF (m : IndexMetadata) : Prop :=
  m.ctime < 4294967296 ∧ m.ctime_nsec < 4294967296 ∧ m.mtime < 4294967296
  ∧ m.mtime_nsec < 4294967296 ∧ m.dev < 4294967296 ∧ m.ino < 4294967296
  ∧ m.mode < 4294967296 ∧ m.uid < 4294967296 ∧ m.gid < 4294967296
  ∧ m.size < 4294967296

def entryWF (e : IndexEntry) : Prop :=
  pathWF e.path ∧ e.oid.length = 20 ∧ mdWF e.metadata

def opWF (op : PathBuf × List Nat × IndexMetadata) : Prop :=
  pathWF op.1 ∧ op.2.1.length = 20 ∧ mdWF op.2.2

instance (c : Comp) : Decidable (compWF c) := by
  unfold compWF
  infer_instance

instance (p : PathBuf) : Decidable (pathWF p) := by
  unfold pathWF
  infer_instance

instance (m : IndexMetadata) : Decidable (mdWF m) := by
  unfold mdWF
  infer_instance

instance (op : PathBuf × List Nat × IndexMetadata) : Decidable (opWF op) := by
  unfold opWF pathWF
  infer_instance

theorem applyAdds_wf (ops : List (PathBuf × List Nat × IndexMetadata))
    (hwf : ∀ op ∈ ops, opWF op) :
    ∀ {idx : Index}, (∀ e ∈ idx.entries, entryWF e) →
      ∀ e ∈ (applyAdds idx ops).entries, entryWF e := by
  induction ops with
  | nil => intro idx h; exact h
  | cons op ops ih =>
    intro idx h
    simp only [applyAdds, List.foldl_cons]
    refine ih (fun o ho => hwf o (List.mem_cons_of_mem _ ho)) ?_
    intro e he
    rcases add_entries_sub e he with h' | h'
    · obtain ⟨hp, ho, hm⟩ := hwf op (List.mem_cons_self _ _)
      rw [h']
      exact ⟨hp, ho, hm⟩
    · exact h e h'

/-! Byte-level helper lemmas. -/

theorem readBytes_exact {xs : List Nat} {k : Nat} (ys : List Nat)
    (h : xs.length = k) : readBytes k (xs ++ ys) = some (xs, ys) := by
  unfold readBytes
  rw [if_pos (by simp [h] : k ≤ (xs ++ ys).length)]
  rw [List.take_left' h, List.drop_left' h]

theorem beVal_u32be {n : Nat} (h : n < 4294967296) : beVal (u32be n) = n := by
  simp only [beVal, u32be, List.foldl]
  omega

theorem beVal_u16be {n : Nat} (h : n < 65536) : beVal (u16be n) = n := by
  simp only [beVal, u16be, List.foldl]
  omega

theorem u32be_length (n : Nat) : (u32be n).length = 4 := rfl

theorem mdFields_flat_length (m : IndexMetadata) :
    ((mdFields m).flatMap u32be).length = 40 := by
  simp [mdFields, u32be]

theorem readMetadata_mdFields (m : IndexMetadata) (h : mdWF m) :
    readMetadata ((mdFields m).flatMap u32be) = m := by
  obtain ⟨c1, c2, c3, c4, c5, c6, c7, c8, c9, c10⟩ := m
  obtain ⟨h1, h2, h3, h4, h5, h6, h7, h8, h9, h10⟩ := h
  have hshape : readMetadata ((mdFields ⟨c1, c2, c3, c4, c5, c6, c7, c8, c9, c10⟩).flatMap u32be)
      = ⟨beVal (u32be c1), beVal (u32be c2), beVal (u32be c3), beVal (u32be c4),
         beVal (u32be c5), beVal (u32be c6), beVal (u32be c7), beVal (u32be c8),
         beVal (u32be c9), beVal (u32be c10)⟩ := rfl
  rw [hshape]
  simp only [IndexMetadata.mk.injEq]
  exact ⟨beVal_u32be h1, beVal_u32be h2, beVal_u32be h3, beVal_u32be h4,
         beVal_u32be h5, beVal_u32be h6, beVal_u32be h7, beVal_u32be h8,
         beVal_u32be h9, beVal_u32be h10⟩

theorem joinComps_cons_cons (c c' : Comp) (cs : List Comp) :
    joinComps (c :: c' :: cs) = c ++ 47 :: joinComps (c' :: cs) := rfl

theorem joinComps_no_zero {p : PathBuf} (h : pathWF p) :
    ∀ b ∈ joinComps p, b ≠ 0 := by
  induction p with
  | nil => intro b hb; cases hb
  | cons c cs ih =>
    intro b hb
    cases cs with
    | nil =>
      have := (h c (List.mem_cons_self _ _)).2.2.2 b hb
      omega
    | cons c' cs' =>
      rw [joinComps_cons_cons] at hb
      rcases List.mem_append.1 hb with h' | h'
      · have := (h c (List.mem_cons_self _ _)).2.2.2 b h'
        omega
      · rcases List.mem_cons.1 h' with h'' | h''
        · omega
        · exact ih (fun x hx => h x (List.mem_cons_of_mem _ hx)) b h''

theorem splitPathAux_no47 {c : Comp} (h : ∀ b ∈ c, b ≠ 47) :
    ∀ (rest cur : List Nat),
      splitPathAux (c ++ rest) cur = splitPathAux rest (c.reverse ++ cur) := by
  induction c with
  | nil => intro rest cur; simp
  | cons b c' ih =>
    intro rest cur
    have hb : b ≠ 47 := h b (List.mem_cons_self _ _)
    have step : splitPathAux ((b :: c') ++ rest) cur
        = splitPathAux (c' ++ rest) (b :: cur) := by
      simp only [List.cons_append, splitPathAux, if_neg hb]
      rfl
    rw [step]
    exact (ih (fun x hx => h x (List.mem_cons_of_mem _ hx)) rest (b :: cur)).trans
      (by simp)

theorem splitPathAux_sep (rest cur : List Nat) :
    splitPathAux (47 :: rest) cur = cur.reverse :: splitPathAux rest [] := by
  simp [splitPathAux]

theorem splitPathAux_joinComps {p : PathBuf}
    (h : ∀ c ∈ p, ∀ b ∈ c, b ≠ 47) (hne : p ≠ []) :
    splitPathAux (joinComps p) [] = p := by
  induction p with
  | nil => exact absurd rfl hne
  | cons c cs ih =>
    cases cs with
    | nil =>
      show splitPathAux (joinComps [c]) [] = [c]
      have hj : joinComps [c] = c := rfl
      rw [hj]
      have hz := splitPathAux_no47 (h c (List.mem_cons_self _ _)) [] []
      rw [List.append_nil] at hz
      rw [hz]
      simp [splitPathAux]
    | cons c' cs' =>
      rw [joinComps_cons_cons]
      rw [splitPathAux_no47 (h c (List.mem_cons_self _ _)) (47 :: joinComps (c' :: cs')) []]
      rw [splitPathAux_sep]
      rw [List.append_nil, List.reverse_reverse]
      rw [ih (fun x hx => h x (List.mem_cons_of_mem _ hx)) (by simp)]

theorem splitPath_joinComps {p : PathBuf} (h : pathWF p) :
    splitPath (joinComps p) = p := by
  cases hp : p with
  | nil => rfl
  | cons c cs =>
    subst hp
    unfold splitPath
    rw [splitPathAux_joinComps (fun c' hc' b hb => ((h c' hc').2.2.2 b hb).2.2) (by simp)]
    rw [List.filter_eq_self.2]
    intro a ha
    obtain ⟨hne, hdot, -, -⟩ := h a ha
    simp only [Bool.and_eq_true, bne_iff_ne, ne_eq]
    exact ⟨hne, hdot⟩

theorem takeWhile_no_zero {P Z : List Nat} (h : ∀ b ∈ P, b ≠ 0) :
    (P ++ 0 :: Z).takeWhile (fun b => b != 0) = P := by
  induction P with
  | nil => simp [List.takeWhile]
  | cons b P' ih =>
    have hb : b ≠ 0 := h b (List.mem_cons_self _ _)
    simp only [List.cons_append, List.takeWhile]
    have : (b != 0) = true := by simpa using hb
    rw [this]
    simp only [List.cons.injEq, true_and]
    exact ih (fun x hx => h x (List.mem_cons_of_mem _ hx))

theorem drop_past_nul {P Z : List Nat} :
    (P ++ 0 :: Z).drop (P.length + 1) = Z := by
  have : P ++ 0 :: Z = (P ++ [0]) ++ Z := by simp
  rw [this]
  exact List.drop_left' (by simp)



theorem replicate_head {K : Nat} (h : 1 ≤ K) (a : α) :
    List.replicate K a = a :: List.replicate (K - 1) a := by
  cases K with
  | zero => omega
  | succ n => simp [List.replicate_succ]

/-- The single-entry round trip, stated over the raw pieces of `to_data`'s
output: 40 field bytes, 20 oid bytes, the flags, the NUL-free path bytes and
the zero padding parse back to exactly the entry they encode. -/
theorem read_entry_core (F O pb : List Nat) (path : PathBuf) (md : IndexMetadata)
    (hF : F.length = 40) (hO : O.length = 20)
    (hmd : readMetadata F = md) (hsplit : splitPath pb = path)
    (hnz : ∀ b ∈ pb, b ≠ 0) (rest : List Nat) :
    read_entry ((F ++ O ++ u16be (min pb.length 4095) ++ pb
        ++ List.replicate
            (8 - (F ++ O ++ u16be (min pb.length 4095) ++ pb).length % 8) 0)
      ++ rest)
      = some (⟨path, O, md⟩, rest) := by
  have hvlen : (F ++ O ++ u16be (min pb.length 4095) ++ pb).length
      = 62 + pb.length := by
    simp only [List.length_append, hF, hO, u16be, List.length_cons, List.length_nil]
  rw [hvlen]
  rw [replicate_head (by omega) 0]
  by_cases hlt : pb.length < 4095
  · rw [Nat.min_eq_left (Nat.le_of_lt hlt)]
    simp only [List.append_assoc, List.cons_append]
    unfold read_entry
    rw [readBytes_exact _ hF]
    simp only [Option.bind_eq_bind, Option.some_bind]
    rw [readBytes_exact _ hO]
    simp only [Option.bind_eq_bind, Option.some_bind]
    rw [readBytes_exact _ (by simp [u16be] : (u16be pb.length).length = 2)]
    simp only [Option.bind_eq_bind, Option.some_bind]
    rw [beVal_u16be (by omega)]
    rw [if_pos hlt]
    rw [readBytes_exact _ rfl]
    simp only [Option.bind_eq_bind, Option.some_bind]
    rw [show (0 : Nat) :: (List.replicate (8 - (62 + pb.length) % 8 - 1) 0 ++ rest)
          = [0] ++ (List.replicate (8 - (62 + pb.length) % 8 - 1) 0 ++ rest) from rfl]
    rw [readBytes_exact _ (by rfl : ([0] : List Nat).length = 1)]
    simp only [Option.bind_eq_bind, Option.some_bind, if_true]
    rw [show (8 - (62 + (pb.length + 1)) % 8) % 8
          = 8 - (62 + pb.length) % 8 - 1 from by omega]
    rw [readBytes_exact rest (List.length_replicate _ _)]
    simp only [Option.bind_eq_bind, Option.some_bind]
    rw [if_pos (by
      simp [List.all_eq_true, List.mem_replicate] :
      (List.replicate (8 - (62 + pb.length) % 8 - 1) (0 : Nat)).all
        (fun b => b == 0) = true)]
    rw [hsplit, hmd]
  · rw [Nat.min_eq_right (by omega : (4095 : Nat) ≤ pb.length)]
    simp only [List.append_assoc, List.cons_append]
    unfold read_entry
    rw [readBytes_exact _ hF]
    simp only [Option.bind_eq_bind, Option.some_bind]
    rw [readBytes_exact _ hO]
    simp only [Option.bind_eq_bind, Option.some_bind]
    rw [readBytes_exact _ (by simp [u16be] : (u16be 4095).length = 2)]
    simp only [Option.bind_eq_bind, Option.some_bind]
    rw [show beVal (u16be 4095) = 4095 from by simp [beVal, u16be]]
    rw [if_neg (by omega : ¬ (4095 : Nat) < 4095)]
    rw [takeWhile_no_zero hnz]
    have hmin : min (pb.length + 1)
        (pb ++ 0 :: (List.replicate (8 - (62 + pb.length) % 8 - 1) 0 ++ rest)).length
        = pb.length + 1 := by
      simp only [List.length_append, List.length_cons, List.length_replicate]
      omega
    rw [hmin]
    rw [drop_past_nul]
    rw [show (8 - (62 + (pb.length + 1)) % 8) % 8
          = 8 - (62 + pb.length) % 8 - 1 from by omega]
    rw [readBytes_exact rest (List.length_replicate _ _)]
    simp only [Option.bind_eq_bind, Option.some_bind]
    rw [if_pos (by
      simp [List.all_eq_true, List.mem_replicate] :
      (List.replicate (8 - (62 + pb.length) % 8 - 1) (0 : Nat)).all
        (fun b => b == 0) = true)]
    rw [hsplit, hmd]

theorem read_entry_to_data (e : IndexEntry) (he : entryWF e) (rest : List Nat) :
    read_entry (to_data e ++ rest) = some (e, rest) := by
  obtain ⟨hp, ho, hm⟩ := he
  have hnz : ∀ b ∈ joinComps e.path, b ≠ 0 := joinComps_no_zero hp
  exact read_entry_core ((mdFields e.metadata).flatMap u32be) e.oid
    (joinComps e.path) e.path e.metadata (mdFields_flat_length _) ho
    (readMetadata_mdFields _ hm) (splitPath_joinComps hp) hnz rest


theorem readEntriesN_flatMap (es : List IndexEntry) (hwf : ∀ e ∈ es, entryWF e)
    (rest : List Nat) :
    readEntriesN es.length (es.flatMap to_data ++ rest) = some (es, rest) := by
  induction es with
  | nil => simp [readEntriesN]
  | cons e es ih =>
    simp only [List.length_cons, List.flatMap_cons, List.append_assoc, readEntriesN]
    rw [read_entry_to_data e (hwf e (List.mem_cons_self _ _))]
    simp only [Option.bind_eq_bind, Option.some_bind]
    rw [ih (fun x hx => hwf x (List.mem_cons_of_mem _ hx))]
    simp only [Option.bind_eq_bind, Option.some_bind]

theorem read_header_get_header (entries : List IndexEntry)
    (hn : entries.length < 4294967296) (rest : List Nat) :
    read_header (get_header entries ++ rest) = some (entries.length, rest) := by
  unfold get_header read_header
  simp only [List.append_assoc]
  rw [readBytes_exact _ (by decide : (asciiBytes "DIRC").length = 4)]
  simp only [Option.bind_eq_bind, Option.some_bind, if_true]
  rw [readBytes_exact _ (u32be_length 2)]
  simp only [Option.bind_eq_bind, Option.some_bind]
  rw [if_pos (by decide : beVal (u32be 2) = 2)]
  rw [readBytes_exact _ (u32be_length entries.length)]
  simp only [Option.bind_eq_bind, Option.some_bind]
  rw [beVal_u32be hn]

theorem readBytes_len (xs : List Nat) (k : Nat) (h : xs.length = k) :
    readBytes k xs = some (xs, []) := by
  subst h
  unfold readBytes
  rw [if_pos (le_refl _)]
  rw [List.take_length, List.drop_length]

theorem foldl_entriesInsert_sorted {es : List IndexEntry} (h : EntriesSorted es) :
    es.foldl (fun m e => entriesInsert e m) [] = es := by
  have := foldl_insertByKey_sorted pathLt IndexEntry.path
    (fun hxy => pathLt_asymm hxy) es [] (by simpa using h)
  simpa [entriesInsert] using this

/-- The full index-file round trip for a well-formed in-memory index: the
bytes written by `write_updates` load back (header check, entry parses,
trailing digest check and all) to exactly the same entries. -/
theorem loadIndex_write_updates (hash : List Nat → List Nat)
    (h20 : ∀ bs, (hash bs).length = 20) (idx : Index)
    (hsorted : EntriesSorted idx.entries)
    (hwf : ∀ e ∈ idx.entries, entryWF e)
    (hn : idx.entries.length < 4294967296) :
    loadIndex hash (write_updates hash idx)
      = some ⟨idx.entries, construct_parents_cache idx.entries⟩ := by
  unfold write_updates loadIndex
  simp only [List.append_assoc]
  rw [read_header_get_header idx.entries hn]
  simp only [Option.bind_eq_bind, Option.some_bind]
  rw [readEntriesN_flatMap idx.entries hwf]
  simp only [Option.bind_eq_bind, Option.some_bind]
  rw [foldl_entriesInsert_sorted hsorted]
  rw [readBytes_len _ 20 (h20 _)]
  simp only [Option.bind_eq_bind, Option.some_bind]
  have htake : (get_header idx.entries ++ (idx.entries.flatMap to_data
      ++ hash (get_header idx.entries ++ idx.entries.flatMap to_data))).take
      ((get_header idx.entries ++ (idx.entries.flatMap to_data
        ++ hash (get_header idx.entries ++ idx.entries.flatMap to_data))).length
        - ([] : List Nat).length - 20)
      = get_header idx.entries ++ idx.entries.flatMap to_data := by
    rw [← List.append_assoc]
    have hlen : (((get_header idx.entries ++ idx.entries.flatMap to_data)
        ++ hash (get_header idx.entries ++ idx.entries.flatMap to_data)).length
        - ([] : List Nat).length - 20)
        = (get_header idx.entries ++ idx.entries.flatMap to_data).length := by
      simp [h20]
      omega
    rw [hlen]
    exact List.take_left _ _
  rw [htake]
  rw [if_pos rfl]

/-- C1: any sequence of `add` calls on an empty index, followed by
`write_updates` and a reload of the written bytes, reconstructs exactly the
in-memory entry list — every entry's path, 20-byte oid and all ten metadata
fields (the hypotheses: the digest is 20 bytes wide, the added paths are
ordinary non-empty ASCII component paths, the oids are 20 bytes, the
metadata fields are u32-sized, and the entry count fits the header's u32). -/
theorem index_roundtrip (hash : List Nat → List Nat)
    (h20 : ∀ bs, (hash bs).length = 20)
    (ops : List (PathBuf × List Nat × IndexMetadata))
    (hwf : ∀ op ∈ ops, opWF op)
    (hn : (applyAdds emptyIndex ops).entries.length < 4294967296) :
    loadIndex hash (write_updates hash (applyAdds emptyIndex ops))
      = some ⟨(applyAdds emptyIndex ops).entries,
              construct_parents_cache (applyAdds emptyIndex ops).entries⟩ :=
  loadIndex_write_updates hash h20 _ (applyAdds_sorted ops List.Pairwise.nil)
    (applyAdds_wf ops hwf (fun e he => absurd he (List.not_mem_nil e))) hn

/-- Witness for C1 at a one-`add` index and a constant 20-byte digest
function. -/
theorem index_roundtrip_witness :
    loadIndex (fun _ => List.replicate 20 0)
      (write_updates (fun _ => List.replicate 20 0)
        (applyAdds emptyIndex [([asciiBytes "a"], zeroOid, mdZero)]))
    = some ⟨(applyAdds emptyIndex [([asciiBytes "a"], zeroOid, mdZero)]).entries,
            construct_parents_cache
              (applyAdds emptyIndex [([asciiBytes "a"], zeroOid, mdZero)]).entries⟩ :=
  index_roundtrip (fun _ => List.replicate 20 0) (fun bs => by simp)
    [([asciiBytes "a"], zeroOid, mdZero)] (by decide) (by decide)


/-! ### The tree builder (`src/tree.rs`)

`Tree` mirrors the Rust struct: optional oid, optional canonical content, and
the `BTreeMap<PathBuf, TreeEntry>` of children as a sorted association list.
Every key the Rust code ever inserts is a single-component `PathBuf` (a
`file_name` or one entry of `get_parent_directories`), so the model keys
entries by the bare component; single-component `PathBuf` order is exactly
component order.  `add_entry`'s `parents` argument is likewise the component
list `path.dropLast` (what `get_parent_directories` produces, stripped of its
singleton wrappers). -/

mutual
inductive TreeEntry where
  | T : Tree → TreeEntry
  | B : Blob → TreeEntry
inductive Tree where
  | mk : Option (List Nat) → Option (List Nat) → List (Comp × TreeEntry) → Tree
end

def Tree.entries : Tree → List (Comp × TreeEntry)
  | .mk _ _ es => es

def Tree.oid : Tree → Option (List Nat)
  | .mk o _ _ => o

def Tree.content : Tree → Option (List Nat)
  | .mk _ c _ => c

def Tree.empty : Tree := .mk none none []

def lookupKey (k : Comp) (es : List (Comp × TreeEntry)) : Option TreeEntry :=
  (es.find? (fun kv => kv.1 == k)).map Prod.snd

def insertKey (k : Comp) (v : TreeEntry) (es : List (Comp × TreeEntry)) :
    List (Comp × TreeEntry) :=
  insertByKey compLt Prod.fst (k, v) es

/-- Rust `Tree::add_entry`: at the bottom insert the blob under its
`file_name` (panic if the path has none); otherwise descend into the first
parent component, lazily creating an empty directory there when the key is
absent, and panic ("supposed to be a tree here!") when a blob sits where a
directory is needed.  Rust inserts the fresh empty `Tree::default()` into the
map before recursing into it through `get_mut`; the model recurses into the
empty tree and then writes both inserts into the map, which leaves the map in
exactly the same state. -/
def Tree.addEntry (t : Tree) (parents : List Comp) (b : Blob) : Option Tree :=
  match parents with
  | [] =>
    match b.path.getLast? with
    | none => none
    | some name => some (.mk t.oid t.content (insertKey name (.B b) t.entries))
  | base :: rest =>
    match lookupKey base t.entries with
    | some (.T sub) =>
      match sub.addEntry rest b with
      | none => none
      | some sub2 => some (.mk t.oid t.content (insertKey base (.T sub2) t.entries))
    | some (.B _) => none
    | none =>
      match Tree.empty.addEntry rest b with
      | none => none
      | some sub2 =>
        some (.mk t.oid t.content
          (insertKey base (.T sub2) (insertKey base (.T Tree.empty) t.entries)))

mutual
/-- Rust `Tree::build`: serialize the children in map order — each directory
child recursively built, its canonical content `"tree " ++ decimal(len) ++
NUL ++ payload` and oid filled in, then recorded as `"40000 " ++ name ++ NUL
++ oidBytes`; each blob child recorded as mode ++ `" " ++ name ++ NUL ++
oidBytes`, the mode depending on the filesystem's executable bit for the
blob's path (`execOf`). -/
def Tree.build (hash : List Nat → List Nat) (execOf : PathBuf → Bool) :
    Tree → List Nat × Tree
  | .mk o c es =>
    let r := buildEntries hash execOf es
    (r.1, .mk o c r.2)
def buildEntries (hash : List Nat → List Nat) (execOf : PathBuf → Bool) :
    List (Comp × TreeEntry) → List Nat × List (Comp × TreeEntry)
  | [] => ([], [])
  | (k, .T t) :: rest =>
    let r := Tree.build hash execOf t
    let content := asciiBytes "tree " ++ decimalBytes r.1.length ++ [0] ++ r.1
    let oid := hash content
    let t2 := Tree.mk (some oid) (some content) (Tree.entries r.2)
    let entryRec := asciiBytes "40000 " ++ k ++ [0] ++ oid
    let rr := buildEntries hash execOf rest
    (entryRec ++ rr.1, (k, .T t2) :: rr.2)
  | (k, .B b) :: rest =>
    let mode := if execOf b.path then asciiBytes "100755" else asciiBytes "100644"
    let entryRec := mode ++ asciiBytes " " ++ k ++ [0] ++ b.oid
    let rr := buildEntries hash execOf rest
    (entryRec ++ rr.1, (k, .B b) :: rr.2)
end

/-- The derived `Ord` on `Blob`: lexicographic on (path, oid, content). -/
def prodCmp (c₁ : α → α → Ordering) (c₂ : β → β → Ordering) (a b : α × β) :
    Ordering :=
  (c₁ a.1 b.1).then (c₂ a.2 b.2)

def blobCmp (x y : Blob) : Ordering :=
  prodCmp pathCmp (prodCmp compCmp compCmp)
    (x.path, x.oid, x.content) (y.path, y.oid, y.content)

def blobLe (x y : Blob) : Bool := blobCmp x y != Ordering.gt

/-- Rust `Tree::new`: sort the blobs (`Vec::sort` with the derived order;
blobs that compare equal are equal in every field, so the sorted result is
the unique sorted permutation and `insertionSort` models it exactly), insert
each blob under its parent components, then fill in every directory's
content and oid bottom-up, the root's last. -/
def Tree.new (hash : List Nat → List Nat) (execOf : PathBuf → Bool)
    (blobs : List Blob) : Option Tree := do
  let sorted := blobs.insertionSort (fun a b => blobLe a b = true)
  let root ← sorted.foldlM (fun t b => t.addEntry b.path.dropLast b) Tree.empty
  let r := Tree.build hash execOf root
  let content := asciiBytes "tree " ++ decimalBytes r.1.length ++ [0] ++ r.1
  some (Tree.mk (some (hash content)) (some content) (Tree.entries r.2))

mutual
/-- Rust `Tree::traverse`, as the list of visited objects in visit order:
each child entry's visits (recursively, for directories) in map order, then
the tree itself. -/
def Tree.traverse : Tree → List TreeEntry
  | .mk o c es => traverseList es ++ [.T (.mk o c es)]
def traverseList : List (Comp × TreeEntry) → List TreeEntry
  | [] => []
  | (_, .T t) :: rest => Tree.traverse t ++ traverseList rest
  | (_, .B b) :: rest => .B b :: traverseList rest
end

/-- The objects reachable from a tree: itself, its blob children, and
everything reachable from its directory children. -/
inductive Reaches : Tree → TreeEntry → Prop where
  | self (t : Tree) : Reaches t (.T t)
  | blob {t : Tree} {k : Comp} {b : Blob} :
      (k, TreeEntry.B b) ∈ t.entries → Reaches t (.B b)
  | sub {t : Tree} {k : Comp} {s : Tree} {x : TreeEntry} :
      (k, TreeEntry.T s) ∈ t.entries → Reaches s x → Reaches t x

/-- Shape invariant of trees produced by repeated successful `add_entry`
calls at position `pos`: keys strictly sorted, every blob child's full path
is `pos ++ [key]`, and every directory child is a non-empty well-formed tree
one level down. -/
inductive WF : PathBuf → Tree → Prop where
  | mk {pos : PathBuf} {o c : Option (List Nat)} {es : List (Comp × TreeEntry)} :
      es.Pairwise (fun a b => compLt a.1 b.1 = true) →
      (∀ k b, (k, TreeEntry.B b) ∈ es → b.path = pos ++ [k]) →
      (∀ k s, (k, TreeEntry.T s) ∈ es → WF (pos ++ [k]) s) →
      (∀ k s, (k, TreeEntry.T s) ∈ es → s.entries ≠ []) →
      WF pos (.mk o c es)

mutual
/-- All blobs stored beneath a tree. -/
def Tree.blobsOf : Tree → List Blob
  | .mk _ _ es => blobsList es
def blobsList : List (Comp × TreeEntry) → List Blob
  | [] => []
  | (_, .T t) :: rest => t.blobsOf ++ blobsList rest
  | (_, .B b) :: rest => b :: blobsList rest
end

/-- The visit list contributed by one child entry. -/
def entryVisits : TreeEntry → List TreeEntry
  | .T t => t.traverse
  | .B b => [.B b]

/-- The blobs beneath one visited object. -/
def visitBlobs : TreeEntry → List Blob
  | .T t => t.blobsOf
  | .B b => [b]

/-- `p` is a strict ancestor directory of `q` (a proper component-list
ancestor). -/
def strictAncestor (p q : PathBuf) : Prop := ∃ r, r ≠ [] ∧ q = p ++ r

theorem strictAncestor_iff (p q : PathBuf) :
    strictAncestor p q ↔ p.length < q.length ∧ q.take p.length = p := by
  constructor
  · rintro ⟨r, hr, rfl⟩
    constructor
    · have : r.length ≠ 0 := fun h => hr (List.eq_nil_of_length_eq_zero h)
      simp
      omega
    · exact List.take_left _ _
  · rintro ⟨hlen, htake⟩
    refine ⟨q.drop p.length, ?_, ?_⟩
    · intro h
      have := congrArg List.length h
      simp at this
      omega
    · conv_lhs => rw [← List.take_append_drop p.length q]
      rw [htake]

instance (p q : PathBuf) : Decidable (strictAncestor p q) :=
  decidable_of_iff _ (strictAncestor_iff p q).symm

def Tree.getPos : Tree → List Comp → Option TreeEntry
  | _, [] => none
  | t, [k] => lookupKey k t.entries
  | t, k :: rest =>
    match lookupKey k t.entries with
    | some (.T s) => s.getPos rest
    | _ => none

/-- A blob sits at exactly the entry position `p` of `t`. -/
def isBlobAt (t : Tree) (p : List Comp) : Prop :=
  ∃ b, t.getPos p = some (TreeEntry.B b)



/-! Basic infrastructure for tree proofs: a size-based induction principle
(the nested inductive makes direct structural induction awkward), size facts,
and lookup/insert interaction lemmas. -/

theorem tree_size_ind (P : Tree → Prop)
    (step : ∀ t, (∀ s : Tree, sizeOf s < sizeOf t → P s) → P t) : ∀ t, P t := by
  intro t
  generalize hn : sizeOf t = n
  induction n using Nat.strong_induction_on generalizing t with
  | _ n ih => exact step t (fun s hs => ih (sizeOf s) (hn ▸ hs) s rfl)

theorem sizeOf_entry_lt {es : List (Comp × TreeEntry)} {k : Comp} {e : TreeEntry}
    (h : (k, e) ∈ es) : sizeOf e < sizeOf es := by
  have h1 := List.sizeOf_lt_of_mem h
  have h2 : sizeOf ((k, e) : Comp × TreeEntry) = 1 + sizeOf k + sizeOf e :=
    Prod.mk.sizeOf_spec k e
  omega

theorem sizeOf_subtree {t : Tree} {k : Comp} {s : Tree}
    (h : (k, TreeEntry.T s) ∈ t.entries) : sizeOf s < sizeOf t := by
  obtain ⟨o, c, es⟩ := t
  simp only [Tree.entries] at h
  have h1 := sizeOf_entry_lt h
  have h2 : sizeOf (TreeEntry.T s) = 1 + sizeOf s := TreeEntry.T.sizeOf_spec s
  have h3 : sizeOf (Tree.mk o c es) = 1 + sizeOf o + sizeOf c + sizeOf es :=
    Tree.mk.sizeOf_spec o c es
  omega

theorem compLt_ne {a b : Comp} (h : compLt a b = true) : a ≠ b := by
  intro he
  subst he
  exact absurd h (compLt_asymm h)

theorem lookupKey_cons (k' : Comp) (kv : Comp × TreeEntry)
    (rest : List (Comp × TreeEntry)) :
    lookupKey k' (kv :: rest)
      = if kv.1 = k' then some kv.2 else lookupKey k' rest := by
  by_cases h : kv.1 = k'
  · simp [lookupKey, List.find?, h]
  · have hb : (kv.1 == k') = false := beq_eq_false_iff_ne.2 h
    simp [lookupKey, List.find?, hb, h]

theorem lookupKey_insertKey_self (k : Comp) (v : TreeEntry)
    (es : List (Comp × TreeEntry)) :
    lookupKey k (insertKey k v es) = some v := by
  induction es with
  | nil => simp [lookupKey, insertKey, insertByKey, List.find?]
  | cons kv rest ih =>
    simp only [insertKey, insertByKey] at *
    split
    · rw [lookupKey_cons]
      simp
    · split
      · rw [lookupKey_cons]
        simp
      · next hnlt hneq =>
        rw [lookupKey_cons]
        rw [if_neg (fun he => hneq he.symm)]
        exact ih

theorem lookupKey_insertKey_ne {k k' : Comp} (h : k' ≠ k) (v : TreeEntry)
    (es : List (Comp × TreeEntry)) :
    lookupKey k' (insertKey k v es) = lookupKey k' es := by
  induction es with
  | nil =>
    simp only [insertKey, insertByKey]
    rw [lookupKey_cons]
    rw [if_neg (fun he => h he.symm)]
  | cons kv rest ih =>
    simp only [insertKey, insertByKey] at *
    split
    · rw [lookupKey_cons, if_neg (fun he => h he.symm)]
    · split
      · next hnlt heq =>
        rw [lookupKey_cons, if_neg (fun he => h he.symm)]
        rw [lookupKey_cons _ kv, if_neg (fun he => h ((heq.trans he).symm))]
      · next hnlt hneq =>
        rw [lookupKey_cons, lookupKey_cons]
        by_cases hk : kv.1 = k'
        · rw [if_pos hk, if_pos hk]
        · rw [if_neg hk, if_neg hk]
          exact ih

theorem insertKey_pairwise {k : Comp} {v : TreeEntry} {es : List (Comp × TreeEntry)}
    (hs : es.Pairwise (fun a b => compLt a.1 b.1 = true)) :
    (insertKey k v es).Pairwise (fun a b => compLt a.1 b.1 = true) :=
  insertByKey_pairwise compLt Prod.fst compLt_tricho
    (fun h₁ h₂ => compLt_trans h₁ h₂) (k, v) es hs

theorem insertKey_ne_nil (k : Comp) (v : TreeEntry) (es : List (Comp × TreeEntry)) :
    insertKey k v es ≠ [] := by
  cases es with
  | nil => simp [insertKey, insertByKey]
  | cons kv rest =>
    simp only [insertKey, insertByKey]
    split
    · simp
    · split
      · simp
      · simp

theorem mem_insertKey_sorted {k : Comp} {v : TreeEntry}
    {es : List (Comp × TreeEntry)}
    (hs : es.Pairwise (fun a b => compLt a.1 b.1 = true)) :
    ∀ (a : Comp) (e : TreeEntry), (a, e) ∈ insertKey k v es →
      (a = k ∧ e = v) ∨ ((a, e) ∈ es ∧ a ≠ k) := by
  induction es with
  | nil =>
    intro a e h
    simp only [insertKey, insertByKey, List.mem_singleton, Prod.mk.injEq] at h
    exact Or.inl h
  | cons kv rest ih =>
    rcases List.pairwise_cons.1 hs with ⟨hkv, hrest⟩
    intro a e h
    simp only [insertKey, insertByKey] at h
    split at h
    · next hlt =>
      rcases List.mem_cons.1 h with h1 | h1
      · rw [Prod.mk.injEq] at h1
        exact Or.inl h1
      · refine Or.inr ⟨h1, ?_⟩
        rcases List.mem_cons.1 h1 with h2 | h2
        · have ha : a = kv.1 := congrArg Prod.fst h2
          rw [ha]
          exact fun he => compLt_ne hlt he.symm
        · have hka : compLt kv.1 a = true := hkv (a, e) h2
          have : compLt k a = true := compLt_trans hlt hka
          exact fun he => compLt_ne this he.symm
    · split at h
      · next hnlt heq =>
        rcases List.mem_cons.1 h with h1 | h1
        · rw [Prod.mk.injEq] at h1
          exact Or.inl h1
        · refine Or.inr ⟨List.mem_cons_of_mem _ h1, ?_⟩
          have hka : compLt kv.1 a = true := hkv (a, e) h1
          rw [← heq] at hka
          exact fun he => compLt_ne hka he.symm
      · next hnlt hneq =>
        rcases List.mem_cons.1 h with h1 | h1
        · refine Or.inr ⟨by rw [h1]; exact List.mem_cons_self _ _, ?_⟩
          have ha : a = kv.1 := congrArg Prod.fst h1
          rw [ha]
          exact fun he => hneq he.symm
        · rcases ih hrest a e h1 with h2 | ⟨h2, h3⟩
          · exact Or.inl h2
          · exact Or.inr ⟨List.mem_cons_of_mem _ h2, h3⟩

theorem traverse_def (t : Tree) :
    t.traverse = traverseList t.entries ++ [TreeEntry.T t] := by
  obtain ⟨o, c, es⟩ := t
  rfl

theorem traverseList_mem {es : List (Comp × TreeEntry)} :
    ∀ x ∈ traverseList es, ∃ kv ∈ es, x ∈ entryVisits kv.2 := by
  induction es with
  | nil => intro x hx; simp [traverseList] at hx
  | cons kv rest ih =>
    obtain ⟨k, e⟩ := kv
    intro x hx
    cases e with
    | T t =>
      rcases List.mem_append.1 hx with h | h
      · exact ⟨(k, TreeEntry.T t), List.mem_cons_self _ _, h⟩
      · obtain ⟨kv', hkv', hx'⟩ := ih x h
        exact ⟨kv', List.mem_cons_of_mem _ hkv', hx'⟩
    | B b =>
      rcases List.mem_cons.1 hx with h | h
      · exact ⟨(k, TreeEntry.B b), List.mem_cons_self _ _, by
          rw [h]; exact List.mem_singleton.2 rfl⟩
      · obtain ⟨kv', hkv', hx'⟩ := ih x h
        exact ⟨kv', List.mem_cons_of_mem _ hkv', hx'⟩

theorem entry_visits_infix {es : List (Comp × TreeEntry)} {kv : Comp × TreeEntry}
    (h : kv ∈ es) :
    ∃ u v, traverseList es = u ++ entryVisits kv.2 ++ v := by
  induction es with
  | nil => cases h
  | cons kv' rest ih =>
    rcases List.mem_cons.1 h with h1 | h1
    · subst h1
      obtain ⟨k, e⟩ := kv
      cases e with
      | T t => exact ⟨[], traverseList rest, rfl⟩
      | B b => exact ⟨[], traverseList rest, rfl⟩
    · obtain ⟨u, v, huv⟩ := ih h1
      obtain ⟨k, e⟩ := kv'
      cases e with
      | T t =>
        refine ⟨Tree.traverse t ++ u, v, ?_⟩
        show Tree.traverse t ++ traverseList rest = _
        rw [huv]
        simp [List.append_assoc]
      | B b =>
        refine ⟨TreeEntry.B b :: u, v, ?_⟩
        show TreeEntry.B b :: traverseList rest = _
        rw [huv]
        simp

theorem mem_entryVisits_of_entry {es : List (Comp × TreeEntry)}
    {kv : Comp × TreeEntry} (h : kv ∈ es) :
    ∀ x ∈ entryVisits kv.2, x ∈ traverseList es := by
  intro x hx
  obtain ⟨u, v, huv⟩ := entry_visits_infix h
  rw [huv]
  simp only [List.mem_append]
  exact Or.inl (Or.inr hx)

theorem self_mem_traverse (t : Tree) : TreeEntry.T t ∈ t.traverse := by
  rw [traverse_def]
  simp

theorem traverse_getLast (t : Tree) :
    t.traverse.getLast? = some (TreeEntry.T t) := by
  rw [traverse_def]
  rw [List.getLast?_concat]


theorem getPos_single (t : Tree) (k : Comp) :
    t.getPos [k] = lookupKey k t.entries := rfl

theorem getPos_cons (t : Tree) (k : Comp) {rest : List Comp} (h : rest ≠ []) :
    t.getPos (k :: rest)
      = match lookupKey k t.entries with
        | some (.T s) => s.getPos rest
        | _ => none := by
  cases rest with
  | nil => exact absurd rfl h
  | cons y r => rfl

theorem isBlobAt_empty {p : List Comp} : ¬ isBlobAt Tree.empty p := by
  rintro ⟨b, hb⟩
  cases p with
  | nil => simp [Tree.getPos] at hb
  | cons k rest =>
    cases rest with
    | nil => simp [getPos_single, lookupKey, Tree.empty, Tree.entries, List.find?] at hb
    | cons y r =>
      rw [getPos_cons _ _ (by simp)] at hb
      simp [lookupKey, Tree.empty, Tree.entries, List.find?] at hb

/-- A blocked walk: if a blob already sits at a non-empty position `p` that
the walk to `parents` must pass through, `add_entry` panics
("supposed to be a tree here!"). -/
theorem addEntry_blocked : ∀ (p : List Comp) (t : Tree) (parents : List Comp)
    (b : Blob) (q : List Comp), parents = p ++ q → p ≠ [] → isBlobAt t p →
    t.addEntry parents b = none := by
  intro p
  induction p with
  | nil => intro t parents b q hpq hne; exact absurd rfl hne
  | cons x p' ih =>
    intro t parents b q hpq hne hB
    subst hpq
    obtain ⟨b0, hb0⟩ := hB
    show Tree.addEntry t ((x :: p') ++ q) b = none
    rw [List.cons_append]
    unfold Tree.addEntry
    cases hl : lookupKey x t.entries with
    | none =>
      exfalso
      cases p' with
      | nil =>
        rw [getPos_single, hl] at hb0
        cases hb0
      | cons y p'' =>
        rw [getPos_cons _ _ (by simp)] at hb0
        simp only [hl] at hb0
        exact Option.noConfusion hb0
    | some e =>
      cases e with
      | B bb => simp only [hl]
      | T sub =>
        cases p' with
        | nil =>
          exfalso
          rw [getPos_single, hl] at hb0
          cases hb0
        | cons y p'' =>
          rw [getPos_cons _ _ (by simp)] at hb0
          simp only [hl] at hb0
          simp only [hl]
          have hrec : sub.addEntry ((y :: p'') ++ q) b = none :=
            ih sub ((y :: p'') ++ q) b q rfl (by simp) ⟨b0, hb0⟩
          rw [hrec]

/-- After a successful insert, a blob sits at position `parents ++ [name]`. -/
theorem addEntry_isBlobAt : ∀ (parents : List Comp) (t t2 : Tree) (b : Blob)
    (nm : Comp), b.path.getLast? = some nm → t.addEntry parents b = some t2 →
    isBlobAt t2 (parents ++ [nm]) := by
  intro parents
  induction parents with
  | nil =>
    intro t t2 b nm hnm h
    unfold Tree.addEntry at h
    rw [hnm] at h
    simp only [Option.some.injEq] at h
    subst h
    refine ⟨b, ?_⟩
    rw [List.nil_append, getPos_single]
    show lookupKey nm (insertKey nm (TreeEntry.B b) t.entries) = _
    rw [lookupKey_insertKey_self]
  | cons base rest ih =>
    intro t t2 b nm hnm h
    unfold Tree.addEntry at h
    split at h
    · next sub heq =>
      split at h
      · cases h
      · next sub2 hrec =>
        simp only [Option.some.injEq] at h
        subst h
        obtain ⟨b0, hb0⟩ := ih sub sub2 b nm hnm hrec
        refine ⟨b0, ?_⟩
        rw [List.cons_append, getPos_cons _ _ (by simp)]
        show (match lookupKey base (insertKey base (TreeEntry.T sub2) t.entries) with
              | some (.T s) => s.getPos (rest ++ [nm])
              | _ => none) = _
        rw [lookupKey_insertKey_self]
        exact hb0
    · cases h
    · next heq =>
      split at h
      · cases h
      · next sub2 hrec =>
        simp only [Option.some.injEq] at h
        subst h
        obtain ⟨b0, hb0⟩ := ih Tree.empty sub2 b nm hnm hrec
        refine ⟨b0, ?_⟩
        rw [List.cons_append, getPos_cons _ _ (by simp)]
        show (match lookupKey base (insertKey base (TreeEntry.T sub2)
                (insertKey base (TreeEntry.T Tree.empty) t.entries)) with
              | some (.T s) => s.getPos (rest ++ [nm])
              | _ => none) = _
        rw [lookupKey_insertKey_self]
        exact hb0


theorem path_decomp {l : List Comp} (h : l ≠ []) :
    ∃ nm, l.getLast? = some nm ∧ l.dropLast ++ [nm] = l :=
  ⟨l.getLast h, by rw [List.getLast?_eq_getLast _ h], List.dropLast_append_getLast h⟩

/-- Inserting a blob at `parents ++ [nm]` keeps any blob that sits at a
position that the inserted path is not a strict ancestor of. -/
theorem addEntry_preserves_blobAt :
    ∀ (parents : List Comp) (t t2 : Tree) (b : Blob) (p : List Comp),
    t.addEntry parents b = some t2 →
    (∀ (r : List Comp) (nm : Comp), r ≠ [] → b.path.getLast? = some nm →
        p ≠ parents ++ nm :: r) →
    isBlobAt t p → isBlobAt t2 p := by
  intro parents
  induction parents with
  | nil =>
    intro t t2 b p h hkill hB
    unfold Tree.addEntry at h
    cases hnm : b.path.getLast? with
    | none => rw [hnm] at h; cases h
    | some nm =>
      rw [hnm] at h
      simp only [Option.some.injEq] at h
      subst h
      obtain ⟨b0, hb0⟩ := hB
      cases p with
      | nil => simp [Tree.getPos] at hb0
      | cons x prest =>
        cases prest with
        | nil =>
          rw [getPos_single] at hb0
          by_cases hx : x = nm
          · subst hx
            refine ⟨b, ?_⟩
            rw [getPos_single]
            simp only [Tree.entries]
            rw [lookupKey_insertKey_self]
          · refine ⟨b0, ?_⟩
            rw [getPos_single]
            simp only [Tree.entries]
            rw [lookupKey_insertKey_ne hx]
            exact hb0
        | cons y r =>
          by_cases hx : x = nm
          · exfalso
            exact hkill (y :: r) nm (by simp) hnm (by rw [hx]; rfl)
          · refine ⟨b0, ?_⟩
            rw [getPos_cons _ _ (by simp)] at hb0 ⊢
            simp only [Tree.entries]
            rw [lookupKey_insertKey_ne hx]
            exact hb0
  | cons base rest ih =>
    intro t t2 b p h hkill hB
    unfold Tree.addEntry at h
    split at h
    · next sub heq =>
      split at h
      · cases h
      · next sub2 hrec =>
        simp only [Option.some.injEq] at h
        subst h
        obtain ⟨b0, hb0⟩ := hB
        cases p with
        | nil => simp [Tree.getPos] at hb0
        | cons x prest =>
          by_cases hx : x = base
          · subst hx
            cases prest with
            | nil =>
              rw [getPos_single, heq] at hb0
              simp at hb0
            | cons y r =>
              rw [getPos_cons _ _ (by simp)] at hb0
              simp only [heq] at hb0
              have hkill2 : ∀ (r' : List Comp) (nm : Comp), r' ≠ [] →
                  b.path.getLast? = some nm → (y :: r) ≠ rest ++ nm :: r' := by
                intro r' nm hr' hnm hcontra
                exact hkill r' nm hr' hnm (by rw [List.cons_append, ← hcontra])
              obtain ⟨b1, hb1⟩ := ih sub sub2 b (y :: r) hrec hkill2 ⟨b0, hb0⟩
              refine ⟨b1, ?_⟩
              rw [getPos_cons _ _ (by simp)]
              simp only [Tree.entries]
              rw [lookupKey_insertKey_self]
              exact hb1
          · refine ⟨b0, ?_⟩
            cases prest with
            | nil =>
              rw [getPos_single] at hb0 ⊢
              simp only [Tree.entries]
              rw [lookupKey_insertKey_ne hx]
              exact hb0
            | cons y r =>
              rw [getPos_cons _ _ (by simp)] at hb0 ⊢
              simp only [Tree.entries]
              rw [lookupKey_insertKey_ne hx]
              exact hb0
    · cases h
    · next heq =>
      split at h
      · cases h
      · next sub2 hrec =>
        simp only [Option.some.injEq] at h
        subst h
        obtain ⟨b0, hb0⟩ := hB
        cases p with
        | nil => simp [Tree.getPos] at hb0
        | cons x prest =>
          by_cases hx : x = base
          · exfalso
            subst hx
            cases prest with
            | nil =>
              rw [getPos_single, heq] at hb0
              cases hb0
            | cons y r =>
              rw [getPos_cons _ _ (by simp)] at hb0
              simp only [heq] at hb0
              exact Option.noConfusion hb0
          · refine ⟨b0, ?_⟩
            cases prest with
            | nil =>
              rw [getPos_single] at hb0 ⊢
              simp only [Tree.entries]
              rw [lookupKey_insertKey_ne hx, lookupKey_insertKey_ne hx]
              exact hb0
            | cons y r =>
              rw [getPos_cons _ _ (by simp)] at hb0 ⊢
              simp only [Tree.entries]
              rw [lookupKey_insertKey_ne hx, lookupKey_insertKey_ne hx]
              exact hb0

/-- Any blob position of the result of an insert was either already a blob
position or is the freshly inserted path. -/
theorem addEntry_blobAt_src : ∀ (parents : List Comp) (t t2 : Tree) (b : Blob)
    (nm : Comp) (p : List Comp), b.path.getLast? = some nm →
    t.addEntry parents b = some t2 → isBlobAt t2 p →
    isBlobAt t p ∨ p = parents ++ [nm] := by
  intro parents
  induction parents with
  | nil =>
    intro t t2 b nm p hnm h hB
    unfold Tree.addEntry at h
    rw [hnm] at h
    simp only [Option.some.injEq] at h
    subst h
    obtain ⟨b0, hb0⟩ := hB
    cases p with
    | nil => simp [Tree.getPos] at hb0
    | cons x prest =>
      cases prest with
      | nil =>
        by_cases hx : x = nm
        · subst hx
          exact Or.inr rfl
        · rw [getPos_single] at hb0
          simp only [Tree.entries] at hb0
          rw [lookupKey_insertKey_ne hx] at hb0
          exact Or.inl ⟨b0, by rw [getPos_single]; exact hb0⟩
      | cons y r =>
        by_cases hx : x = nm
        · exfalso
          subst hx
          rw [getPos_cons _ _ (by simp)] at hb0
          simp only [Tree.entries] at hb0
          rw [lookupKey_insertKey_self] at hb0
          exact Option.noConfusion hb0
        · rw [getPos_cons _ _ (by simp)] at hb0
          simp only [Tree.entries] at hb0
          rw [lookupKey_insertKey_ne hx] at hb0
          refine Or.inl ⟨b0, ?_⟩
          rw [getPos_cons _ _ (by simp)]
          exact hb0
  | cons base rest ih =>
    intro t t2 b nm p hnm h hB
    unfold Tree.addEntry at h
    split at h
    · next sub heq =>
      split at h
      · cases h
      · next sub2 hrec =>
        simp only [Option.some.injEq] at h
        subst h
        obtain ⟨b0, hb0⟩ := hB
        cases p with
        | nil => simp [Tree.getPos] at hb0
        | cons x prest =>
          by_cases hx : x = base
          · subst hx
            cases prest with
            | nil =>
              exfalso
              rw [getPos_single] at hb0
              simp only [Tree.entries] at hb0
              rw [lookupKey_insertKey_self] at hb0
              simp at hb0
            | cons y r =>
              rw [getPos_cons _ _ (by simp)] at hb0
              simp only [Tree.entries] at hb0
              rw [lookupKey_insertKey_self] at hb0
              rcases ih sub sub2 b nm (y :: r) hnm hrec ⟨b0, hb0⟩ with h1 | h1
              · obtain ⟨b1, hb1⟩ := h1
                refine Or.inl ⟨b1, ?_⟩
                rw [getPos_cons _ _ (by simp)]
                simp only [heq]
                exact hb1
              · exact Or.inr (by rw [List.cons_append, h1])
          · refine Or.inl ?_
            cases prest with
            | nil =>
              rw [getPos_single] at hb0
              simp only [Tree.entries] at hb0
              rw [lookupKey_insertKey_ne hx] at hb0
              exact ⟨b0, by rw [getPos_single]; exact hb0⟩
            | cons y r =>
              rw [getPos_cons _ _ (by simp)] at hb0
              simp only [Tree.entries] at hb0
              rw [lookupKey_insertKey_ne hx] at hb0
              exact ⟨b0, by rw [getPos_cons _ _ (by simp)]; exact hb0⟩
    · cases h
    · next heq =>
      split at h
      · cases h
      · next sub2 hrec =>
        simp only [Option.some.injEq] at h
        subst h
        obtain ⟨b0, hb0⟩ := hB
        cases p with
        | nil => simp [Tree.getPos] at hb0
        | cons x prest =>
          by_cases hx : x = base
          · subst hx
            cases prest with
            | nil =>
              exfalso
              rw [getPos_single] at hb0
              simp only [Tree.entries] at hb0
              rw [lookupKey_insertKey_self] at hb0
              simp at hb0
            | cons y r =>
              rw [getPos_cons _ _ (by simp)] at hb0
              simp only [Tree.entries] at hb0
              rw [lookupKey_insertKey_self] at hb0
              rcases ih Tree.empty sub2 b nm (y :: r) hnm hrec ⟨b0, hb0⟩ with h1 | h1
              · exact absurd h1 isBlobAt_empty
              · exact Or.inr (by rw [List.cons_append, h1])
          · refine Or.inl ?_
            cases prest with
            | nil =>
              rw [getPos_single] at hb0
              simp only [Tree.entries] at hb0
              rw [lookupKey_insertKey_ne hx, lookupKey_insertKey_ne hx] at hb0
              exact ⟨b0, by rw [getPos_single]; exact hb0⟩
            | cons y r =>
              rw [getPos_cons _ _ (by simp)] at hb0
              simp only [Tree.entries] at hb0
              rw [lookupKey_insertKey_ne hx, lookupKey_insertKey_ne hx] at hb0
              exact ⟨b0, by rw [getPos_cons _ _ (by simp)]; exact hb0⟩

/-- If no blob blocks the walk, `add_entry` succeeds. -/
theorem addEntry_succeeds : ∀ (parents : List Comp) (t : Tree) (b : Blob),
    b.path ≠ [] →
    (∀ q r, parents = q ++ r → q ≠ [] → ¬ isBlobAt t q) →
    ∃ t2, t.addEntry parents b = some t2 := by
  intro parents
  induction parents with
  | nil =>
    intro t b hb _
    obtain ⟨nm, hnm, -⟩ := path_decomp hb
    refine ⟨Tree.mk t.oid t.content (insertKey nm (TreeEntry.B b) t.entries), ?_⟩
    unfold Tree.addEntry
    rw [hnm]
  | cons base rest ih =>
    intro t b hb hnoB
    unfold Tree.addEntry
    cases hl : lookupKey base t.entries with
    | none =>
      obtain ⟨sub2, hsub2⟩ := ih Tree.empty b hb
        (fun q r hqr hq => isBlobAt_empty)
      refine ⟨Tree.mk t.oid t.content (insertKey base (TreeEntry.T sub2)
        (insertKey base (TreeEntry.T Tree.empty) t.entries)), ?_⟩
      show (match Tree.empty.addEntry rest b with
            | none => none
            | some sub2 => some (Tree.mk t.oid t.content
                (insertKey base (TreeEntry.T sub2)
                  (insertKey base (TreeEntry.T Tree.empty) t.entries)))) = _
      rw [hsub2]
    | some e =>
      cases e with
      | B bb =>
        exact absurd ⟨bb, by rw [getPos_single]; exact hl⟩
          (hnoB [base] rest rfl (by simp))
      | T sub =>
        have hnoB2 : ∀ q r, rest = q ++ r → q ≠ [] → ¬ isBlobAt sub q := by
          intro q r hqr hq hB
          obtain ⟨b0, hb0⟩ := hB
          refine hnoB (base :: q) r (by rw [hqr]; rfl) (by simp) ⟨b0, ?_⟩
          rw [getPos_cons _ _ hq]
          simp only [hl]
          exact hb0
        obtain ⟨sub2, hsub2⟩ := ih sub b hb hnoB2
        refine ⟨Tree.mk t.oid t.content (insertKey base (TreeEntry.T sub2) t.entries), ?_⟩
        show (match sub.addEntry rest b with
              | none => none
              | some sub2 => some (Tree.mk t.oid t.content
                  (insertKey base (TreeEntry.T sub2) t.entries))) = _
        rw [hsub2]


/-! Properties of the derived blob ordering, and of sorted blob lists. -/

theorem prodCmp_eq_iff (c₁ : α → α → Ordering) (c₂ : β → β → Ordering)
    (h₁ : ∀ a b, c₁ a b = .eq ↔ a = b) (h₂ : ∀ a b, c₂ a b = .eq ↔ a = b) :
    ∀ x y, prodCmp c₁ c₂ x y = .eq ↔ x = y := by
  rintro ⟨a1, v1⟩ ⟨a2, v2⟩
  unfold prodCmp
  cases h : c₁ a1 a2 with
  | lt =>
    simp only [Ordering.then, Prod.mk.injEq]
    constructor
    · intro hx; cases hx
    · rintro ⟨rfl, rfl⟩
      rw [(h₁ a1 a1).2 rfl] at h
      cases h
  | eq =>
    have := (h₁ a1 a2).1 h
    subst this
    simp only [Ordering.then, Prod.mk.injEq]
    rw [h₂ v1 v2]
    simp
  | gt =>
    simp only [Ordering.then, Prod.mk.injEq]
    constructor
    · intro hx; cases hx
    · rintro ⟨rfl, rfl⟩
      rw [(h₁ a1 a1).2 rfl] at h
      cases h

theorem prodCmp_gt_iff_lt (c₁ : α → α → Ordering) (c₂ : β → β → Ordering)
    (h₁e : ∀ a b, c₁ a b = .eq ↔ a = b)
    (h₁g : ∀ a b, c₁ a b = .gt ↔ c₁ b a = .lt)
    (h₂g : ∀ a b, c₂ a b = .gt ↔ c₂ b a = .lt) :
    ∀ x y, prodCmp c₁ c₂ x y = .gt ↔ prodCmp c₁ c₂ y x = .lt := by
  rintro ⟨a1, v1⟩ ⟨a2, v2⟩
  unfold prodCmp
  cases h : c₁ a1 a2 with
  | lt =>
    have hba : c₁ a2 a1 = .gt := (h₁g a2 a1).2 h
    rw [hba]
    simp [Ordering.then]
  | eq =>
    have := (h₁e a1 a2).1 h
    subst this
    rw [h]
    simp only [Ordering.then]
    exact h₂g v1 v2
  | gt =>
    have hba : c₁ a2 a1 = .lt := (h₁g a1 a2).1 h
    rw [hba]
    simp [Ordering.then]

theorem prodCmp_lt_trans (c₁ : α → α → Ordering) (c₂ : β → β → Ordering)
    (h₁e : ∀ a b, c₁ a b = .eq ↔ a = b)
    (h₁t : ∀ {a b d}, c₁ a b = .lt → c₁ b d = .lt → c₁ a d = .lt)
    (h₂t : ∀ {a b d}, c₂ a b = .lt → c₂ b d = .lt → c₂ a d = .lt) :
    ∀ {x y z}, prodCmp c₁ c₂ x y = .lt → prodCmp c₁ c₂ y z = .lt →
      prodCmp c₁ c₂ x z = .lt := by
  rintro ⟨a1, v1⟩ ⟨a2, v2⟩ ⟨a3, v3⟩ hxy hyz
  unfold prodCmp at *
  cases hab : c₁ a1 a2 with
  | lt =>
    cases hbd : c₁ a2 a3 with
    | lt => rw [h₁t hab hbd]; rfl
    | eq =>
      have := (h₁e a2 a3).1 hbd
      subst this
      rw [hab]
      rfl
    | gt => rw [hbd] at hyz; simp [Ordering.then] at hyz
  | eq =>
    have := (h₁e a1 a2).1 hab
    subst this
    rw [hab] at hxy
    simp only [Ordering.then] at hxy
    cases hbd : c₁ a1 a3 with
    | lt => simp [Ordering.then]
    | eq =>
      rw [hbd] at hyz
      simp only [Ordering.then] at hyz ⊢
      exact h₂t hxy hyz
    | gt => rw [hbd] at hyz; simp [Ordering.then] at hyz
  | gt => rw [hab] at hxy; simp [Ordering.then] at hxy

theorem blobCmp_eq {x y : Blob} (h : blobCmp x y = .eq) : x = y := by
  unfold blobCmp at h
  have := (prodCmp_eq_iff pathCmp (prodCmp compCmp compCmp) pathCmp_eq_iff
    (prodCmp_eq_iff compCmp compCmp compCmp_eq_iff compCmp_eq_iff) _ _).1 h
  obtain ⟨xp, xo, xc⟩ := x
  obtain ⟨yp, yo, yc⟩ := y
  simp only [Prod.mk.injEq] at this
  obtain ⟨h1, h2, h3⟩ := this
  simp_all

theorem blobCmp_refl (x : Blob) : blobCmp x x = .eq :=
  (prodCmp_eq_iff pathCmp (prodCmp compCmp compCmp) pathCmp_eq_iff
    (prodCmp_eq_iff compCmp compCmp compCmp_eq_iff compCmp_eq_iff) _ _).2 rfl

theorem blobCmp_gt_iff_lt (x y : Blob) : blobCmp x y = .gt ↔ blobCmp y x = .lt :=
  prodCmp_gt_iff_lt pathCmp (prodCmp compCmp compCmp) pathCmp_eq_iff
    pathCmp_gt_iff_lt
    (prodCmp_gt_iff_lt compCmp compCmp compCmp_eq_iff compCmp_gt_iff_lt
      compCmp_gt_iff_lt) _ _

theorem blobCmp_lt_trans {x y z : Blob} (h₁ : blobCmp x y = .lt)
    (h₂ : blobCmp y z = .lt) : blobCmp x z = .lt :=
  prodCmp_lt_trans pathCmp (prodCmp compCmp compCmp) pathCmp_eq_iff
    (fun ha hb => pathCmp_lt_trans ha hb)
    (fun ha hb => prodCmp_lt_trans compCmp compCmp compCmp_eq_iff
      (fun hc hd => compCmp_lt_trans hc hd)
      (fun hc hd => compCmp_lt_trans hc hd) ha hb) h₁ h₂

theorem blobLe_iff (x y : Blob) : blobLe x y = true ↔ blobCmp x y ≠ .gt := by
  unfold blobLe
  cases blobCmp x y <;> decide

theorem blobLe_total (x y : Blob) : blobLe x y = true ∨ blobLe y x = true := by
  rw [blobLe_iff, blobLe_iff]
  cases h : blobCmp x y with
  | lt => exact Or.inl (by simp)
  | eq => exact Or.inl (by simp)
  | gt =>
    right
    rw [(blobCmp_gt_iff_lt x y).1 h]
    simp

theorem blobLe_trans {x y z : Blob} (h₁ : blobLe x y = true)
    (h₂ : blobLe y z = true) : blobLe x z = true := by
  rw [blobLe_iff] at *
  cases hxy : blobCmp x y with
  | gt => exact absurd hxy h₁
  | eq =>
    have := blobCmp_eq hxy
    subst this
    exact h₂
  | lt =>
    cases hyz : blobCmp y z with
    | gt => exact absurd hyz h₂
    | eq =>
      have := blobCmp_eq hyz
      subst this
      rw [hxy]
      simp
    | lt =>
      rw [blobCmp_lt_trans hxy hyz]
      simp

instance : IsTotal Blob (fun a b => blobLe a b = true) := ⟨blobLe_total⟩

instance : IsTrans Blob (fun a b => blobLe a b = true) :=
  ⟨fun _ _ _ h₁ h₂ => blobLe_trans h₁ h₂⟩

theorem listCmp_self_append (c : α → α → Ordering) (hc : ∀ a, c a a = .eq) :
    ∀ (p r : List α), r ≠ [] → listCmp c p (p ++ r) = .lt := by
  intro p
  induction p with
  | nil =>
    intro r hr
    cases r with
    | nil => exact absurd rfl hr
    | cons a r' => rfl
  | cons a p' ih =>
    intro r hr
    simp only [List.cons_append, listCmp, hc a]
    exact ih r hr

theorem strictAncestor_pathCmp_lt {p q : PathBuf} (h : strictAncestor p q) :
    pathCmp p q = .lt := by
  obtain ⟨r, hr, rfl⟩ := h
  exact listCmp_self_append compCmp (fun a => (compCmp_eq_iff a a).2 rfl) p r hr

theorem strictAncestor_blobCmp_lt {x y : Blob}
    (h : strictAncestor x.path y.path) : blobCmp x y = .lt := by
  unfold blobCmp prodCmp
  rw [strictAncestor_pathCmp_lt h]
  rfl

theorem sorted_split {l : List Blob} {b1 b2 : Blob}
    (hs : l.Pairwise (fun a b => blobLe a b = true))
    (h1 : b1 ∈ l) (h2 : b2 ∈ l) (hlt : blobCmp b1 b2 = .lt) :
    ∃ u m, l = u ++ b1 :: m ∧ b2 ∈ m ∧ ∀ x ∈ m, blobLe b1 x = true := by
  obtain ⟨u, v, rfl⟩ := List.append_of_mem h2
  have hb1 : b1 ∈ u := by
    rcases List.mem_append.1 h1 with h | h
    · exact h
    · rcases List.mem_cons.1 h with h | h
      · exfalso
        rw [h, blobCmp_refl] at hlt
        cases hlt
      · exfalso
        have hle : blobLe b2 b1 = true :=
          (List.pairwise_cons.1 (List.pairwise_append.1 hs).2.1).1 b1 h
        have hgt : blobCmp b2 b1 = .gt := (blobCmp_gt_iff_lt b2 b1).2 hlt
        rw [blobLe_iff] at hle
        exact hle hgt
  obtain ⟨u1, u2, rfl⟩ := List.append_of_mem hb1
  refine ⟨u1, u2 ++ b2 :: v, by simp, by simp, ?_⟩
  have hs2 : ((u1 ++ b1 :: u2) ++ b2 :: v).Pairwise (fun a b => blobLe a b = true) := hs
  rw [List.append_assoc, List.cons_append] at hs2
  have := (List.pairwise_cons.1 (List.pairwise_append.1 hs2).2.1).1
  intro x hx
  exact this x (by simpa using hx)

theorem addStep_empty_path (t : Tree) (b : Blob) (h : b.path = []) :
    t.addEntry b.path.dropLast b = none := by
  rw [h]
  show t.addEntry [] b = none
  unfold Tree.addEntry
  rw [show b.path.getLast? = none from by rw [h]; rfl]

/-- Once a blob sits at position `P`, folding further inserts whose paths are
not strict ancestors of `P` keeps it there, and a later insert strictly below
`P` fails the whole fold. -/
theorem fold_blocked (b2 : Blob) (P : List Comp) (hP : P ≠ [])
    (hanc : strictAncestor P b2.path) :
    ∀ (l₃ : List Blob) (l₄ : List Blob) (t : Tree), isBlobAt t P →
    (∀ x ∈ l₃, ¬ strictAncestor x.path P) →
    (l₃ ++ b2 :: l₄).foldlM (fun t b => t.addEntry b.path.dropLast b) t
      = none := by
  intro l₃
  induction l₃ with
  | nil =>
    intro l₄ t hB _
    rw [List.nil_append, List.foldlM_cons]
    have hblock : t.addEntry b2.path.dropLast b2 = none := by
      obtain ⟨r, hr, hb2⟩ := hanc
      refine addEntry_blocked P t _ b2 r.dropLast ?_ hP hB
      rw [hb2]
      exact List.dropLast_append_of_ne_nil _ hr
    rw [hblock]
    rfl
  | cons x l₃' ih =>
    intro l₄ t hB hno
    rw [List.cons_append, List.foldlM_cons]
    cases hsx : t.addEntry x.path.dropLast x with
    | none => rfl
    | some t' =>
      simp only [Option.bind_eq_bind, Option.some_bind]
      have hx_ne : x.path ≠ [] := by
        intro hnil
        rw [addStep_empty_path t x hnil] at hsx
        cases hsx
      have hpres : isBlobAt t' P := by
        refine addEntry_preserves_blobAt x.path.dropLast t t' x P hsx ?_ hB
        intro r nm hr hnm hcontra
        refine hno x (List.mem_cons_self _ _) ⟨r, hr, ?_⟩
        obtain ⟨nm', hnm', hdecomp⟩ := path_decomp hx_ne
        rw [hnm'] at hnm
        have hnmeq : nm' = nm := Option.some.injEq .. ▸ hnm
        rw [hcontra, ← hdecomp, hnmeq]
        simp
      exact ih l₄ t' hpres (fun y hy => hno y (List.mem_cons_of_mem _ hy))

/-- C10, first half: if one blob's path is a proper directory prefix of
another blob's path, `Tree::new` panics (the prefix sorts first, lands as a
blob, and the longer path's walk then finds a blob where a directory is
needed). -/
theorem new_none_of_ancestor_pair (hash : List Nat → List Nat)
    (execOf : PathBuf → Bool) (blobs : List Blob) (b1 b2 : Blob)
    (h1 : b1 ∈ blobs) (h2 : b2 ∈ blobs)
    (ha : strictAncestor b1.path b2.path) :
    Tree.new hash execOf blobs = none := by
  unfold Tree.new
  have hperm := List.perm_insertionSort (fun a b => blobLe a b = true) blobs
  have hsorted : (blobs.insertionSort (fun a b => blobLe a b = true)).Pairwise
      (fun a b => blobLe a b = true) :=
    List.sorted_insertionSort (fun a b => blobLe a b = true) blobs
  have hlt := strictAncestor_blobCmp_lt ha
  obtain ⟨u, m, hsplit, hb2m, hm⟩ :=
    sorted_split hsorted (hperm.mem_iff.2 h1) (hperm.mem_iff.2 h2) hlt
  have hfold : (blobs.insertionSort (fun a b => blobLe a b = true)).foldlM
      (fun t b => t.addEntry b.path.dropLast b) Tree.empty = none := by
    rw [hsplit, List.foldlM_append]
    cases hseg : u.foldlM (fun t b => t.addEntry b.path.dropLast b) Tree.empty with
    | none => rfl
    | some t0 =>
      simp only [Option.bind_eq_bind, Option.some_bind]
      rw [List.foldlM_cons]
      by_cases hb1nil : b1.path = []
      · rw [addStep_empty_path t0 b1 hb1nil]
        rfl
      · cases hstep : t0.addEntry b1.path.dropLast b1 with
        | none => rfl
        | some t1 =>
          simp only [Option.bind_eq_bind, Option.some_bind]
          obtain ⟨nm, hnm, hdec⟩ := path_decomp hb1nil
          have hblob : isBlobAt t1 b1.path := by
            have := addEntry_isBlobAt _ t0 t1 b1 nm hnm hstep
            rwa [hdec] at this
          obtain ⟨l₃, l₄, rfl⟩ := List.append_of_mem hb2m
          refine fold_blocked b2 b1.path hb1nil ha l₃ l₄ t1 hblob ?_
          intro x hx hanc'
          have hle : blobLe b1 x = true := hm x (by simp [hx])
          have hxlt : blobCmp x b1 = .lt := strictAncestor_blobCmp_lt hanc'
          have hgt : blobCmp b1 x = .gt := (blobCmp_gt_iff_lt b1 x).2 hxlt
          rw [blobLe_iff] at hle
          exact hle hgt
  simp only [hfold]
  rfl


/-- Folding inserts whose paths never sit strictly below any blob position
(tracked by the abstract position predicate `Q`) succeeds. -/
theorem fold_total : ∀ (l : List Blob) (t : Tree) (Q : List Comp → Prop),
    (∀ b ∈ l, b.path ≠ []) →
    (∀ b ∈ l, Q b.path) →
    (∀ P, isBlobAt t P → Q P) →
    (∀ b ∈ l, ∀ P, Q P → ¬ strictAncestor P b.path) →
    ∃ t2, l.foldlM (fun t b => t.addEntry b.path.dropLast b) t = some t2 := by
  intro l
  induction l with
  | nil =>
    intro t Q _ _ _ _
    exact ⟨t, rfl⟩
  | cons x l' ih =>
    intro t Q hne hQ hInv hnoanc
    have hx_ne : x.path ≠ [] := hne x (List.mem_cons_self _ _)
    obtain ⟨nm, hnm, hdec⟩ := path_decomp hx_ne
    have hside : ∀ q r, x.path.dropLast = q ++ r → q ≠ [] → ¬ isBlobAt t q := by
      intro q r hqr hq hB
      refine hnoanc x (List.mem_cons_self _ _) q (hInv q hB)
        ⟨r ++ [nm], by simp, ?_⟩
      rw [← hdec, hqr, List.append_assoc]
    obtain ⟨t1, hstep⟩ := addEntry_succeeds x.path.dropLast t x hx_ne hside
    have hInv1 : ∀ P, isBlobAt t1 P → Q P := by
      intro P hB
      rcases addEntry_blobAt_src x.path.dropLast t t1 x nm P hnm hstep hB with
        h | h
      · exact hInv P h
      · rw [h, hdec]
        exact hQ x (List.mem_cons_self _ _)
    obtain ⟨t2, hfold⟩ := ih t1 Q (fun b hb => hne b (List.mem_cons_of_mem _ hb))
      (fun b hb => hQ b (List.mem_cons_of_mem _ hb)) hInv1
      (fun b hb => hnoanc b (List.mem_cons_of_mem _ hb))
    refine ⟨t2, ?_⟩
    simp only [List.foldlM_cons]
    rw [hstep]
    simp only [Option.bind_eq_bind, Option.some_bind]
    exact hfold

/-- C10, second half (amended): if every blob's path is non-empty and no
blob's path is a strict ancestor of another blob's path, `Tree::new` reaches
no panic: every insert succeeds and construction is total. -/
theorem new_some_of_no_ancestor (hash : List Nat → List Nat)
    (execOf : PathBuf → Bool) (blobs : List Blob)
    (hne : ∀ b ∈ blobs, b.path ≠ [])
    (hnoanc : ∀ b1 ∈ blobs, ∀ b2 ∈ blobs, ¬ strictAncestor b1.path b2.path) :
    (Tree.new hash execOf blobs).isSome = true := by
  have hperm := List.perm_insertionSort (fun a b => blobLe a b = true) blobs
  obtain ⟨t2, hfold⟩ := fold_total
    (blobs.insertionSort (fun a b => blobLe a b = true)) Tree.empty
    (fun P => ∃ b ∈ blobs, b.path = P)
    (fun b hb => hne b (hperm.mem_iff.1 hb))
    (fun b hb => ⟨b, hperm.mem_iff.1 hb, rfl⟩)
    (fun P hB => absurd hB isBlobAt_empty)
    (by
      intro b hb P hQ hanc
      obtain ⟨b2, hb2, rfl⟩ := hQ
      exact hnoanc b2 hb2 b (hperm.mem_iff.1 hb) hanc)
  unfold Tree.new
  simp only [hfold]
  rfl

/-- C10 counterexample to the totality half as stated: a single blob whose
path is empty satisfies the stated precondition (no blob path is a strict
ancestor of another blob path) vacuously, yet `Tree::new` still panics -
`add_entry` bottoms out with `parents` empty and `file_name()` of the empty
path is `None`, so the `expect` fails and construction is not total. -/
theorem tree_new_empty_path_not_total :
    (∀ b1 ∈ [Blob.mk [] [] []], ∀ b2 ∈ [Blob.mk [] [] []],
        ¬ strictAncestor b1.path b2.path)
    ∧ Tree.new (fun _ => []) (fun _ => false) [Blob.mk [] [] []] = none :=
  ⟨by decide, rfl⟩

/-- C10 (amended): `Tree::new` panics whenever one blob's full path is a
proper directory prefix of another blob's path (such a blob always sorts
before the other, lands as a blob entry, and the longer path's directory walk
then hits a blob where a subtree is required - the "supposed to be a tree
here!" panic); and if additionally every blob's path is non-empty, then
under the precondition that no blob's path is an ancestor of another blob's
path, construction reaches no panic and is total. (The non-emptiness
amendment is required: a blob with an empty path defeats totality on its own,
see the counterexample.) -/
theorem tree_new_ancestor_behavior (hash : List Nat → List Nat)
    (execOf : PathBuf → Bool) (blobs : List Blob) :
    (∀ b1 b2, b1 ∈ blobs → b2 ∈ blobs → strictAncestor b1.path b2.path →
        Tree.new hash execOf blobs = none)
    ∧ ((∀ b ∈ blobs, b.path ≠ []) →
       (∀ b1 ∈ blobs, ∀ b2 ∈ blobs, ¬ strictAncestor b1.path b2.path) →
       (Tree.new hash execOf blobs).isSome = true) :=
  ⟨fun b1 b2 h1 h2 ha => new_none_of_ancestor_pair hash execOf blobs b1 b2 h1 h2 ha,
   fun hne hnoanc => new_some_of_no_ancestor hash execOf blobs hne hnoanc⟩

theorem tree_new_ancestor_behavior_witness :
    Tree.new (fun _ => []) (fun _ => false)
      [Blob.mk [[97]] [] [], Blob.mk [[97], [98]] [] []] = none
    ∧ (Tree.new (fun _ => []) (fun _ => false) [Blob.mk [[97]] [] []]).isSome
        = true :=
  ⟨(tree_new_ancestor_behavior (fun _ => []) (fun _ => false)
      [Blob.mk [[97]] [] [], Blob.mk [[97], [98]] [] []]).1
      (Blob.mk [[97]] [] []) (Blob.mk [[97], [98]] [] [])
      (by decide) (by decide) (by decide),
   (tree_new_ancestor_behavior (fun _ => []) (fun _ => false)
      [Blob.mk [[97]] [] []]).2 (by decide) (by decide)⟩


/-! C6 stack: the traversal visits exactly the reachable objects, each
exactly once, children before parents, root last.  The once-ness needs the
shape invariant `WF`, established for every tree `Tree.new` returns. -/

theorem reaches_of_mem_traverse : ∀ (t : Tree) (x : TreeEntry),
    x ∈ t.traverse → Reaches t x := by
  refine tree_size_ind (fun t => ∀ x, x ∈ t.traverse → Reaches t x) ?_
  intro t ih x hx
  obtain ⟨o, c, es⟩ := t
  rw [traverse_def] at hx
  rcases List.mem_append.1 hx with h | h
  · obtain ⟨⟨k, e⟩, hkv, hx'⟩ := traverseList_mem x h
    cases e with
    | B b =>
      simp only [entryVisits, List.mem_singleton] at hx'
      subst hx'
      exact Reaches.blob hkv
    | T s =>
      simp only [entryVisits] at hx'
      have hsz : sizeOf s < sizeOf (Tree.mk o c es) := sizeOf_subtree hkv
      exact Reaches.sub hkv (ih s hsz x hx')
  · rw [List.mem_singleton.1 h]
    exact Reaches.self _

theorem mem_traverse_of_reaches : ∀ {t : Tree} {x : TreeEntry},
    Reaches t x → x ∈ t.traverse := by
  intro t x h
  induction h with
  | self t => exact self_mem_traverse t
  | blob hmem =>
    rw [traverse_def]
    refine List.mem_append.2 (Or.inl ?_)
    exact mem_entryVisits_of_entry hmem _ (by simp [entryVisits])
  | sub hmem _ ih =>
    rw [traverse_def]
    refine List.mem_append.2 (Or.inl ?_)
    exact mem_entryVisits_of_entry hmem _ (by simpa [entryVisits] using ih)

/-- The traversal of any reachable directory is a contiguous segment of the
root traversal. -/
theorem traverse_sub_infix : ∀ {t : Tree} {x : TreeEntry}, Reaches t x →
    ∀ d : Tree, x = TreeEntry.T d →
    ∃ u v, t.traverse = u ++ (d.traverse ++ v) := by
  intro t x h
  induction h with
  | self t =>
    intro d hd
    cases hd
    exact ⟨[], [], by simp⟩
  | blob hmem =>
    intro d hd
    cases hd
  | sub hmem hr ih =>
    intro d hd
    rename_i t0 k0 s0 x0
    obtain ⟨u, v, huv⟩ := ih d hd
    obtain ⟨u2, v2, huv2⟩ := entry_visits_infix hmem
    simp only [entryVisits] at huv2
    refine ⟨u2 ++ u, v ++ (v2 ++ [TreeEntry.T t0]), ?_⟩
    rw [traverse_def, huv2, huv]
    simp [List.append_assoc]

theorem lookupKey_mem {k : Comp} {es : List (Comp × TreeEntry)} {e : TreeEntry}
    (h : lookupKey k es = some e) : (k, e) ∈ es := by
  unfold lookupKey at h
  cases hf : es.find? (fun kv => kv.1 == k) with
  | none => rw [hf] at h; cases h
  | some kv =>
    rw [hf] at h
    have hmem := List.mem_of_find?_eq_some hf
    have hkey := List.find?_some hf
    obtain ⟨a, v⟩ := kv
    have ha : a = k := by simpa using hkey
    have hv : v = e := by simpa using h
    rw [← ha, ← hv]
    exact hmem

theorem WF_set_oc {pos : PathBuf} {o c o2 c2 : Option (List Nat)}
    {es : List (Comp × TreeEntry)} (h : WF pos (.mk o c es)) :
    WF pos (.mk o2 c2 es) := by
  cases h with
  | mk h1 h2 h3 h4 => exact WF.mk h1 h2 h3 h4

theorem WF_empty (pos : PathBuf) : WF pos Tree.empty :=
  WF.mk List.Pairwise.nil (by simp) (by simp) (by simp)

theorem addEntry_entries_ne_nil : ∀ (parents : List Comp) (t t2 : Tree)
    (b : Blob), t.addEntry parents b = some t2 → t2.entries ≠ [] := by
  intro parents t t2 b h
  cases parents with
  | nil =>
    unfold Tree.addEntry at h
    cases hnm : b.path.getLast? with
    | none => rw [hnm] at h; cases h
    | some nm =>
      rw [hnm] at h
      simp only [Option.some.injEq] at h
      subst h
      exact insertKey_ne_nil _ _ _
  | cons base rest =>
    unfold Tree.addEntry at h
    split at h
    · split at h
      · cases h
      · simp only [Option.some.injEq] at h
        subst h
        exact insertKey_ne_nil _ _ _
    · cases h
    · split at h
      · cases h
      · simp only [Option.some.injEq] at h
        subst h
        exact insertKey_ne_nil _ _ _

/-- A successful `add_entry` of a blob whose recorded path points exactly at
the insert position preserves the shape invariant. -/
theorem addEntry_WF : ∀ (parents : List Comp) (pos : PathBuf) (t t2 : Tree)
    (b : Blob) (nm : Comp), WF pos t → b.path.getLast? = some nm →
    b.path.dropLast = pos ++ parents → t.addEntry parents b = some t2 →
    WF pos t2 := by
  intro parents
  induction parents with
  | nil =>
    intro pos t t2 b nm hWF hnm hdrop hadd
    obtain ⟨o, c, es⟩ := t
    cases hWF with
    | mk h1 h2 h3 h4 =>
    unfold Tree.addEntry at hadd
    rw [hnm] at hadd
    simp only [Option.some.injEq] at hadd
    subst hadd
    have hne : b.path ≠ [] := by
      intro h
      rw [h] at hnm
      cases hnm
    obtain ⟨nm', hnm', hdec⟩ := path_decomp hne
    rw [hnm] at hnm'
    have hnm2 : nm' = nm := by cases hnm'; rfl
    subst hnm2
    have hbp : b.path = pos ++ [nm'] := by
      rw [← hdec, hdrop, List.append_nil]
    refine WF.mk (insertKey_pairwise h1) ?_ ?_ ?_
    · intro k b' hmem
      rcases mem_insertKey_sorted h1 k (.B b') hmem with ⟨hk, hv⟩ | ⟨hmem', _⟩
      · cases hv
        rw [hk]
        exact hbp
      · exact h2 k b' hmem'
    · intro k s hmem
      rcases mem_insertKey_sorted h1 k (.T s) hmem with ⟨_, hv⟩ | ⟨hmem', _⟩
      · cases hv
      · exact h3 k s hmem'
    · intro k s hmem
      rcases mem_insertKey_sorted h1 k (.T s) hmem with ⟨_, hv⟩ | ⟨hmem', _⟩
      · cases hv
      · exact h4 k s hmem'
  | cons base rest ih =>
    intro pos t t2 b nm hWF hnm hdrop hadd
    obtain ⟨o, c, es⟩ := t
    cases hWF with
    | mk h1 h2 h3 h4 =>
    unfold Tree.addEntry at hadd
    split at hadd
    · next sub heq =>
      split at hadd
      · cases hadd
      · next sub2 hrec =>
        simp only [Option.some.injEq] at hadd
        subst hadd
        have hmemsub : (base, TreeEntry.T sub) ∈ es := lookupKey_mem heq
        have hWFsub : WF (pos ++ [base]) sub := h3 base sub hmemsub
        have hWF2 : WF (pos ++ [base]) sub2 :=
          ih (pos ++ [base]) sub sub2 b nm hWFsub hnm
            (by rw [hdrop]; simp) hrec
        refine WF.mk (insertKey_pairwise h1) ?_ ?_ ?_
        · intro k b' hmem
          rcases mem_insertKey_sorted h1 k (.B b') hmem with ⟨_, hv⟩ | ⟨hmem', _⟩
          · cases hv
          · exact h2 k b' hmem'
        · intro k s hmem
          rcases mem_insertKey_sorted h1 k (.T s) hmem with ⟨hk, hv⟩ | ⟨hmem', _⟩
          · cases hv
            rw [hk]
            exact hWF2
          · exact h3 k s hmem'
        · intro k s hmem
          rcases mem_insertKey_sorted h1 k (.T s) hmem with ⟨_, hv⟩ | ⟨hmem', _⟩
          · cases hv
            exact addEntry_entries_ne_nil rest sub sub2 b hrec
          · exact h4 k s hmem'
    · cases hadd
    · next hnone =>
      split at hadd
      · cases hadd
      · next sub2 hrec =>
        simp only [Option.some.injEq] at hadd
        subst hadd
        have hWF2 : WF (pos ++ [base]) sub2 :=
          ih (pos ++ [base]) Tree.empty sub2 b nm (WF_empty _) hnm
            (by rw [hdrop]; simp) hrec
        have h1i : (insertKey base (.T Tree.empty) es).Pairwise
            (fun a b => compLt a.1 b.1 = true) := insertKey_pairwise h1
        refine WF.mk (insertKey_pairwise h1i) ?_ ?_ ?_
        · intro k b' hmem
          rcases mem_insertKey_sorted h1i k (.B b') hmem with ⟨_, hv⟩ | ⟨hmem', hk⟩
          · cases hv
          · rcases mem_insertKey_sorted h1 k (.B b') hmem' with ⟨hk2, _⟩ | ⟨hmem2, _⟩
            · exact absurd hk2 hk
            · exact h2 k b' hmem2
        · intro k s hmem
          rcases mem_insertKey_sorted h1i k (.T s) hmem with ⟨hk, hv⟩ | ⟨hmem', hk⟩
          · cases hv
            rw [hk]
            exact hWF2
          · rcases mem_insertKey_sorted h1 k (.T s) hmem' with ⟨hk2, _⟩ | ⟨hmem2, _⟩
            · exact absurd hk2 hk
            · exact h3 k s hmem2
        · intro k s hmem
          rcases mem_insertKey_sorted h1i k (.T s) hmem with ⟨_, hv⟩ | ⟨hmem', hk⟩
          · cases hv
            exact addEntry_entries_ne_nil rest Tree.empty sub2 b hrec
          · rcases mem_insertKey_sorted h1 k (.T s) hmem' with ⟨hk2, _⟩ | ⟨hmem2, _⟩
            · exact absurd hk2 hk
            · exact h4 k s hmem2

theorem fold_WF : ∀ (l : List Blob) (t t2 : Tree), WF [] t →
    l.foldlM (fun t b => t.addEntry b.path.dropLast b) t = some t2 →
    WF [] t2 := by
  intro l
  induction l with
  | nil =>
    intro t t2 hWF h
    cases h
    exact hWF
  | cons x l' ih =>
    intro t t2 hWF h
    simp only [List.foldlM_cons] at h
    cases hsx : t.addEntry x.path.dropLast x with
    | none =>
      rw [hsx] at h
      cases h
    | some t1 =>
      rw [hsx] at h
      simp only [Option.bind_eq_bind, Option.some_bind] at h
      have hx_ne : x.path ≠ [] := by
        intro hnil
        rw [addStep_empty_path t x hnil] at hsx
        cases hsx
      obtain ⟨nm, hnm, _⟩ := path_decomp hx_ne
      have hWF1 : WF [] t1 :=
        addEntry_WF x.path.dropLast [] t t1 x nm hWF hnm (by simp) hsx
      exact ih t1 t2 hWF1 h


theorem sizeOf_entries_lt (t : Tree) : sizeOf t.entries < sizeOf t := by
  obtain ⟨o, c, es⟩ := t
  have := Tree.mk.sizeOf_spec o c es
  simp only [Tree.entries]
  omega

theorem build_snd_entries (hash : List Nat → List Nat) (execOf : PathBuf → Bool)
    (t : Tree) : Tree.entries (Tree.build hash execOf t).2
      = (buildEntries hash execOf (Tree.entries t)).2 := by
  obtain ⟨o, c, es⟩ := t
  rfl

theorem buildEntries_keys (hash : List Nat → List Nat) (execOf : PathBuf → Bool) :
    ∀ es : List (Comp × TreeEntry),
    ((buildEntries hash execOf es).2).map Prod.fst = es.map Prod.fst := by
  intro es
  induction es with
  | nil => rfl
  | cons kv rest ih =>
    obtain ⟨k, e⟩ := kv
    cases e with
    | T t => simp only [buildEntries, List.map_cons, ih]
    | B b => simp only [buildEntries, List.map_cons, ih]

/-- What `build` does to a child list: blobs are kept verbatim, directory
children keep their key and get their entries rebuilt recursively. -/
theorem buildEntries_mem (hash : List Nat → List Nat) (execOf : PathBuf → Bool) :
    ∀ es : List (Comp × TreeEntry), ∀ kv ∈ (buildEntries hash execOf es).2,
      (kv ∈ es ∧ ∃ b, kv.2 = TreeEntry.B b) ∨
      (∃ t t2, kv.2 = TreeEntry.T t2 ∧ (kv.1, TreeEntry.T t) ∈ es ∧
        Tree.entries t2 = (buildEntries hash execOf (Tree.entries t)).2) := by
  intro es
  induction es with
  | nil =>
    intro kv h
    simp only [buildEntries] at h
    cases h
  | cons kv0 rest ih =>
    obtain ⟨k, e⟩ := kv0
    cases e with
    | T t =>
      intro kv h
      simp only [buildEntries] at h
      rcases List.mem_cons.1 h with h1 | h1
      · subst h1
        refine Or.inr ⟨t, _, rfl, List.mem_cons_self _ _, ?_⟩
        exact build_snd_entries hash execOf t
      · rcases ih kv h1 with ⟨hm, hb⟩ | ⟨t', t2', he, hm, hent⟩
        · exact Or.inl ⟨List.mem_cons_of_mem _ hm, hb⟩
        · exact Or.inr ⟨t', t2', he, List.mem_cons_of_mem _ hm, hent⟩
    | B b =>
      intro kv h
      simp only [buildEntries] at h
      rcases List.mem_cons.1 h with h1 | h1
      · subst h1
        exact Or.inl ⟨List.mem_cons_self _ _, ⟨b, rfl⟩⟩
      · rcases ih kv h1 with ⟨hm, hb⟩ | ⟨t', t2', he, hm, hent⟩
        · exact Or.inl ⟨List.mem_cons_of_mem _ hm, hb⟩
        · exact Or.inr ⟨t', t2', he, List.mem_cons_of_mem _ hm, hent⟩

/-- `build` fills in oids and contents but preserves the shape invariant. -/
theorem buildEntries_WF (hash : List Nat → List Nat) (execOf : PathBuf → Bool) :
    ∀ (n : Nat) (es : List (Comp × TreeEntry)), sizeOf es ≤ n →
    ∀ (pos : PathBuf) (o c o2 c2 : Option (List Nat)),
    WF pos (Tree.mk o c es) →
    WF pos (Tree.mk o2 c2 (buildEntries hash execOf es).2) := by
  intro n
  induction n with
  | zero =>
    intro es hsz
    exfalso
    cases es with
    | nil => simp at hsz
    | cons a b =>
      have := List.cons.sizeOf_spec a b
      omega
  | succ n ihn =>
    intro es hsz pos o c o2 c2 hWF
    cases hWF with
    | mk h1 h2 h3 h4 =>
    refine WF.mk ?_ ?_ ?_ ?_
    · have hk := buildEntries_keys hash execOf es
      have h1m : (es.map Prod.fst).Pairwise (fun a b => compLt a b = true) :=
        List.pairwise_map.2 h1
      rw [← hk] at h1m
      exact List.pairwise_map.1 h1m
    · intro k b hmem
      rcases buildEntries_mem hash execOf es (k, .B b) hmem with
        ⟨hm, _⟩ | ⟨t', t2', he, _, _⟩
      · exact h2 k b hm
      · cases he
    · intro k s hmem
      rcases buildEntries_mem hash execOf es (k, .T s) hmem with
        ⟨_, b, hb⟩ | ⟨t', t2', he, hm, hent⟩
      · cases hb
      · have hs : s = t2' := by cases he; rfl
        subst hs
        obtain ⟨ot, ct, ets⟩ := t'
        have hWFt : WF (pos ++ [k]) (Tree.mk ot ct ets) := h3 k _ hm
        have hszt : sizeOf ets ≤ n := by
          have hlt := sizeOf_entry_lt hm
          have hspec := TreeEntry.T.sizeOf_spec (Tree.mk ot ct ets)
          have hspec2 := Tree.mk.sizeOf_spec ot ct ets
          omega
        obtain ⟨os, cs, ess⟩ := s
        simp only [Tree.entries] at hent
        subst hent
        exact ihn ets hszt (pos ++ [k]) ot ct os cs hWFt
    · intro k s hmem
      rcases buildEntries_mem hash execOf es (k, .T s) hmem with
        ⟨_, b, hb⟩ | ⟨t', t2', he, hm, hent⟩
      · cases hb
      · have hs : s = t2' := by cases he; rfl
        subst hs
        have hne := h4 k t' hm
        intro hnil
        rw [hent] at hnil
        have hk := buildEntries_keys hash execOf (Tree.entries t')
        rw [hnil] at hk
        have : Tree.entries t' = [] := by
          cases hent2 : Tree.entries t' with
          | nil => rfl
          | cons a b =>
            rw [hent2] at hk
            simp at hk
        exact hne this

theorem new_root_WF (hash : List Nat → List Nat) (execOf : PathBuf → Bool)
    (blobs : List Blob) (root : Tree)
    (h : Tree.new hash execOf blobs = some root) : WF [] root := by
  unfold Tree.new at h
  cases hfold : (blobs.insertionSort (fun a b => blobLe a b = true)).foldlM
      (fun t b => t.addEntry b.path.dropLast b) Tree.empty with
  | none =>
    simp only [hfold, Option.bind_eq_bind, Option.none_bind] at h
    exact Option.noConfusion h
  | some t0 =>
    simp only [hfold, Option.bind_eq_bind, Option.some_bind] at h
    have hWF0 : WF [] t0 := fold_WF _ _ _ (WF_empty []) hfold
    obtain ⟨o0, c0, es0⟩ := t0
    simp only [Option.some.injEq] at h
    subst h
    have hent : Tree.entries (Tree.build hash execOf (Tree.mk o0 c0 es0)).2
        = (buildEntries hash execOf es0).2 := rfl
    rw [hent]
    exact buildEntries_WF hash execOf (sizeOf es0) es0 le_rfl [] o0 c0 _ _ hWF0


theorem blobsList_mem : ∀ (es : List (Comp × TreeEntry)) (b : Blob),
    b ∈ blobsList es → ∃ kv ∈ es, b ∈ visitBlobs kv.2 := by
  intro es
  induction es with
  | nil => intro b hb; simp [blobsList] at hb
  | cons kv rest ih =>
    obtain ⟨k, e⟩ := kv
    intro b hb
    cases e with
    | T t =>
      rcases List.mem_append.1 hb with h | h
      · exact ⟨(k, .T t), List.mem_cons_self _ _, h⟩
      · obtain ⟨kv', h1, h2⟩ := ih b h
        exact ⟨kv', List.mem_cons_of_mem _ h1, h2⟩
    | B b' =>
      rcases List.mem_cons.1 hb with h | h
      · exact ⟨(k, .B b'), List.mem_cons_self _ _, by
          rw [h]; exact List.mem_singleton.2 rfl⟩
      · obtain ⟨kv', h1, h2⟩ := ih b h
        exact ⟨kv', List.mem_cons_of_mem _ h1, h2⟩

/-- Every blob stored beneath a well-formed tree records a path strictly
below the tree's position. -/
theorem blobsOf_stamp : ∀ (t : Tree), ∀ (pos : PathBuf), WF pos t →
    ∀ b ∈ t.blobsOf, ∃ r, r ≠ [] ∧ b.path = pos ++ r := by
  refine tree_size_ind (fun t => ∀ pos, WF pos t → ∀ b ∈ t.blobsOf,
      ∃ r, r ≠ [] ∧ b.path = pos ++ r) ?_
  intro t ih pos hWF b hb
  obtain ⟨o, c, es⟩ := t
  cases hWF with
  | mk h1 h2 h3 h4 =>
  obtain ⟨⟨k, e⟩, hkv, hb'⟩ := blobsList_mem es b hb
  cases e with
  | B b2 =>
    have hbe : b = b2 := List.mem_singleton.1 hb'
    subst hbe
    exact ⟨[k], by simp, h2 k b hkv⟩
  | T s =>
    have hWFs : WF (pos ++ [k]) s := h3 k s hkv
    have hsz : sizeOf s < sizeOf (Tree.mk o c es) := sizeOf_subtree hkv
    obtain ⟨r, hr, hpath⟩ := ih s hsz (pos ++ [k]) hWFs b hb'
    exact ⟨k :: r, by simp, by rw [hpath]; simp⟩

/-- A well-formed tree with at least one child stores at least one blob. -/
theorem blobsOf_ne : ∀ (t : Tree), ∀ (pos : PathBuf), WF pos t →
    t.entries ≠ [] → t.blobsOf ≠ [] := by
  refine tree_size_ind
    (fun t => ∀ pos, WF pos t → t.entries ≠ [] → t.blobsOf ≠ []) ?_
  intro t ih pos hWF hne
  obtain ⟨o, c, es⟩ := t
  cases hWF with
  | mk h1 h2 h3 h4 =>
  cases es with
  | nil => exact absurd rfl hne
  | cons kv rest =>
    obtain ⟨k, e⟩ := kv
    cases e with
    | B b =>
      show b :: blobsList rest ≠ []
      simp
    | T s =>
      show s.blobsOf ++ blobsList rest ≠ []
      have hWFs : WF (pos ++ [k]) s := h3 k s (List.mem_cons_self _ _)
      have hnes : s.entries ≠ [] := h4 k s (List.mem_cons_self _ _)
      have hsz : sizeOf s < sizeOf (Tree.mk o c ((k, TreeEntry.T s) :: rest)) :=
        sizeOf_subtree (List.mem_cons_self _ _)
      have hbs := ih s hsz (pos ++ [k]) hWFs hnes
      intro hcontra
      rcases List.append_eq_nil.1 hcontra with ⟨h5, _⟩
      exact hbs h5

theorem visitList_sub : ∀ (n : Nat) (es : List (Comp × TreeEntry)),
    sizeOf es ≤ n →
    ∀ x ∈ traverseList es, ∀ b ∈ visitBlobs x, b ∈ blobsList es := by
  intro n
  induction n with
  | zero =>
    intro es hsz
    exfalso
    cases es with
    | nil => simp at hsz
    | cons a rest =>
      have := List.cons.sizeOf_spec a rest
      omega
  | succ n ihn =>
    intro es hsz x hx b hb
    cases es with
    | nil => simp [traverseList] at hx
    | cons kv rest =>
      obtain ⟨k, e⟩ := kv
      cases e with
      | B b' =>
        rcases List.mem_cons.1 hx with h | h
        · subst h
          have hbe : b = b' := List.mem_singleton.1 hb
          subst hbe
          exact List.mem_cons_self _ _
        · have hszr : sizeOf rest ≤ n := by
            have s1 := List.cons.sizeOf_spec (k, TreeEntry.B b') rest
            have s2 := Prod.mk.sizeOf_spec k (TreeEntry.B b')
            omega
          exact List.mem_cons_of_mem _ (ihn rest hszr x h b hb)
      | T s =>
        rcases List.mem_append.1 hx with h | h
        · obtain ⟨o, c, es'⟩ := s
          rw [traverse_def] at h
          rcases List.mem_append.1 h with h2 | h2
          · have hszs : sizeOf es' ≤ n := by
              have s1 := List.cons.sizeOf_spec
                (k, TreeEntry.T (Tree.mk o c es')) rest
              have s2 := Prod.mk.sizeOf_spec k (TreeEntry.T (Tree.mk o c es'))
              have s3 := TreeEntry.T.sizeOf_spec (Tree.mk o c es')
              have s4 := Tree.mk.sizeOf_spec o c es'
              omega
            exact List.mem_append.2 (Or.inl (ihn es' hszs x h2 b hb))
          · rw [List.mem_singleton.1 h2] at hb
            exact List.mem_append.2 (Or.inl hb)
        · have hszr : sizeOf rest ≤ n := by
            have s1 := List.cons.sizeOf_spec (k, TreeEntry.T s) rest
            have s2 := Prod.mk.sizeOf_spec k (TreeEntry.T s)
            omega
          exact List.mem_append.2 (Or.inr (ihn rest hszr x h b hb))

theorem visit_sub (t : Tree) (x : TreeEntry) (hx : x ∈ t.traverse) :
    ∀ b ∈ visitBlobs x, b ∈ t.blobsOf := by
  obtain ⟨o, c, es⟩ := t
  rw [traverse_def] at hx
  rcases List.mem_append.1 hx with h | h
  · exact fun b hb => visitList_sub (sizeOf es) es le_rfl x h b hb
  · rw [List.mem_singleton.1 h]
    exact fun b hb => hb

theorem reaches_WF : ∀ {t : Tree} {x : TreeEntry}, Reaches t x →
    ∀ pos, WF pos t → ∀ d : Tree, x = TreeEntry.T d →
    d = t ∨ ∃ pos2, WF pos2 d ∧ d.entries ≠ [] := by
  intro t x h
  induction h with
  | self t =>
    intro pos hWF d hd
    cases hd
    exact Or.inl rfl
  | blob hmem =>
    intro pos hWF d hd
    cases hd
  | sub hmem hr ih =>
    intro pos hWF d hd
    rename_i t0 k0 s0 x0
    obtain ⟨o, c, es⟩ := t0
    cases hWF with
    | mk h1 h2 h3 h4 =>
    have hWFs : WF (pos ++ [k0]) s0 := h3 k0 s0 hmem
    rcases ih (pos ++ [k0]) hWFs d hd with h5 | h5
    · rw [h5]
      exact Or.inr ⟨pos ++ [k0], hWFs, h4 k0 s0 hmem⟩
    · exact Or.inr h5

/-- Stamp of one child entry of a well-formed node: every object its visit
list contributes carries at least one blob, and all those blobs' recorded
paths descend through this child's key. -/
theorem entryVisits_stamp (pos : PathBuf) (k : Comp) (e : TreeEntry)
    (hB : ∀ b, e = TreeEntry.B b → b.path = pos ++ [k])
    (hT : ∀ s, e = TreeEntry.T s → WF (pos ++ [k]) s ∧ s.entries ≠ []) :
    ∀ x ∈ entryVisits e, visitBlobs x ≠ [] ∧
      ∀ b ∈ visitBlobs x, ∃ r, b.path = pos ++ k :: r := by
  cases e with
  | B b0 =>
    intro x hx
    have hx2 : x = TreeEntry.B b0 := List.mem_singleton.1 hx
    subst hx2
    refine ⟨by simp [visitBlobs], ?_⟩
    intro b hb
    have hbe : b = b0 := List.mem_singleton.1 hb
    subst hbe
    exact ⟨[], by rw [hB b rfl]⟩
  | T s =>
    obtain ⟨hWFs, hnes⟩ := hT s rfl
    intro x hx
    constructor
    · have hR : Reaches s x := reaches_of_mem_traverse s x hx
      cases x with
      | B b => simp [visitBlobs]
      | T d =>
        rcases reaches_WF hR (pos ++ [k]) hWFs d rfl with h | ⟨pos2, hWFd, hned⟩
        · rw [h]
          exact blobsOf_ne s (pos ++ [k]) hWFs hnes
        · exact blobsOf_ne d pos2 hWFd hned
    · intro b hb
      have hbs : b ∈ s.blobsOf := visit_sub s x hx b hb
      obtain ⟨r, hr, hpath⟩ := blobsOf_stamp s (pos ++ [k]) hWFs b hbs
      refine ⟨r, ?_⟩
      rw [hpath]
      simp

theorem mem_traverseList_size : ∀ (n : Nat) (es : List (Comp × TreeEntry)),
    sizeOf es ≤ n → ∀ x ∈ traverseList es, sizeOf x < sizeOf es := by
  intro n
  induction n with
  | zero =>
    intro es hsz
    exfalso
    cases es with
    | nil => simp at hsz
    | cons a rest =>
      have := List.cons.sizeOf_spec a rest
      omega
  | succ n ihn =>
    intro es hsz x hx
    cases es with
    | nil => simp [traverseList] at hx
    | cons kv rest =>
      obtain ⟨k, e⟩ := kv
      cases e with
      | B b =>
        have s1 := List.cons.sizeOf_spec (k, TreeEntry.B b) rest
        have s2 := Prod.mk.sizeOf_spec k (TreeEntry.B b)
        rcases List.mem_cons.1 hx with h | h
        · subst h
          have s3 := TreeEntry.B.sizeOf_spec b
          omega
        · have hszr : sizeOf rest ≤ n := by omega
          have := ihn rest hszr x h
          omega
      | T s =>
        have s1 := List.cons.sizeOf_spec (k, TreeEntry.T s) rest
        have s2 := Prod.mk.sizeOf_spec k (TreeEntry.T s)
        have s3 := TreeEntry.T.sizeOf_spec s
        rcases List.mem_append.1 hx with h | h
        · obtain ⟨o, c, es'⟩ := s
          rw [traverse_def] at h
          have s4 := Tree.mk.sizeOf_spec o c es'
          rcases List.mem_append.1 h with h2 | h2
          · have hszs : sizeOf es' ≤ n := by omega
            have := ihn es' hszs x h2
            omega
          · rw [List.mem_singleton.1 h2]
            omega
        · have hszr : sizeOf rest ≤ n := by omega
          have := ihn rest hszr x h
          omega


/-- Distinctness of the visit list of a well-formed node's children, given
distinctness inside each directory child. -/
theorem traverseList_nodup_aux : ∀ (es : List (Comp × TreeEntry)) (pos : PathBuf),
    es.Pairwise (fun a b => compLt a.1 b.1 = true) →
    (∀ k b, (k, TreeEntry.B b) ∈ es → b.path = pos ++ [k]) →
    (∀ k s, (k, TreeEntry.T s) ∈ es → WF (pos ++ [k]) s) →
    (∀ k s, (k, TreeEntry.T s) ∈ es → s.entries ≠ []) →
    (∀ s : Tree, (∃ k, (k, TreeEntry.T s) ∈ es) → s.traverse.Nodup) →
    (traverseList es).Nodup := by
  intro es
  induction es with
  | nil => intro pos _ _ _ _ _; simp [traverseList]
  | cons kv rest ih =>
    obtain ⟨k, e⟩ := kv
    intro pos hpw h2 h3 h4 h5
    rcases List.pairwise_cons.1 hpw with ⟨hklt, hpw2⟩
    have ihrest : (traverseList rest).Nodup :=
      ih pos hpw2 (fun k2 b h => h2 k2 b (List.mem_cons_of_mem _ h))
        (fun k2 s h => h3 k2 s (List.mem_cons_of_mem _ h))
        (fun k2 s h => h4 k2 s (List.mem_cons_of_mem _ h))
        (fun s hs => h5 s ⟨hs.choose, List.mem_cons_of_mem _ hs.choose_spec⟩)
    have hstampHead := entryVisits_stamp pos k e
      (fun b hb => h2 k b (by rw [← hb]; exact List.mem_cons_self _ _))
      (fun s hs => ⟨h3 k s (by rw [← hs]; exact List.mem_cons_self _ _),
                    h4 k s (by rw [← hs]; exact List.mem_cons_self _ _)⟩)
    have hstampRest : ∀ k2 e2, (k2, e2) ∈ rest → ∀ x ∈ entryVisits e2,
        visitBlobs x ≠ [] ∧ ∀ b ∈ visitBlobs x, ∃ r, b.path = pos ++ k2 :: r := by
      intro k2 e2 hmem
      exact entryVisits_stamp pos k2 e2
        (fun b hb => h2 k2 b (by rw [← hb]; exact List.mem_cons_of_mem _ hmem))
        (fun s hs => ⟨h3 k2 s (by rw [← hs]; exact List.mem_cons_of_mem _ hmem),
                      h4 k2 s (by rw [← hs]; exact List.mem_cons_of_mem _ hmem)⟩)
    have hdisj : ∀ x ∈ entryVisits e, x ∉ traverseList rest := by
      intro x hx hx2
      obtain ⟨⟨k2, e2⟩, hkv2, hx3⟩ := traverseList_mem x hx2
      obtain ⟨hne1, hstamp1⟩ := hstampHead x hx
      obtain ⟨_, hstamp2⟩ := hstampRest k2 e2 hkv2 x hx3
      obtain ⟨b, hb⟩ := List.exists_mem_of_ne_nil _ hne1
      obtain ⟨r1, hp1⟩ := hstamp1 b hb
      obtain ⟨r2, hp2⟩ := hstamp2 b hb
      have h6 : k :: r1 = k2 :: r2 :=
        List.append_cancel_left (hp1.symm.trans hp2)
      have hkk : k = k2 := by
        injection h6 with hk hr
      exact compLt_ne (hklt (k2, e2) hkv2) hkk
    cases e with
    | B b0 =>
      refine List.nodup_cons.2 ⟨?_, ihrest⟩
      exact hdisj (TreeEntry.B b0) (List.mem_singleton.2 rfl)
    | T s0 =>
      refine List.Nodup.append ?_ ihrest ?_
      · exact h5 s0 ⟨k, List.mem_cons_self _ _⟩
      · intro a ha ha2
        exact hdisj a ha ha2

/-- A well-formed tree's traversal visits no object twice. -/
theorem traverse_nodup : ∀ (t : Tree), ∀ (pos : PathBuf), WF pos t →
    t.traverse.Nodup := by
  refine tree_size_ind (fun t => ∀ pos, WF pos t → t.traverse.Nodup) ?_
  intro t ih pos hWF
  obtain ⟨o, c, es⟩ := t
  cases hWF with
  | mk h1 h2 h3 h4 =>
  rw [traverse_def]
  have hlist : (traverseList es).Nodup :=
    traverseList_nodup_aux es pos h1 h2 h3 h4
      (fun s hs => ih s (sizeOf_subtree hs.choose_spec) (pos ++ [hs.choose])
        (h3 hs.choose s hs.choose_spec))
  have hnotmem : TreeEntry.T (Tree.mk o c es) ∉ traverseList es := by
    intro hmem
    have hlt := mem_traverseList_size (sizeOf es) es le_rfl _ hmem
    have s3 := TreeEntry.T.sizeOf_spec (Tree.mk o c es)
    have s4 := Tree.mk.sizeOf_spec o c es
    omega
  refine List.Nodup.append hlist (List.nodup_singleton _) ?_
  intro a ha ha2
  rw [List.mem_singleton.1 ha2] at ha
  exact hnotmem ha

/-- C6: for every tree `Tree::new` returns, `traverse` visits exactly the
objects reachable from the root (each object of the model being a directory
node or a stored blob), visits no object twice, visits every child of any
reachable directory strictly before that directory, and visits the root
last of all. -/
theorem tree_traverse_visits_once (hash : List Nat → List Nat)
    (execOf : PathBuf → Bool) (blobs : List Blob) (root : Tree)
    (h : Tree.new hash execOf blobs = some root) :
    (∀ x, Reaches root x ↔ x ∈ root.traverse)
    ∧ root.traverse.Nodup
    ∧ root.traverse.getLast? = some (TreeEntry.T root)
    ∧ (∀ (d : Tree) (k : Comp) (e : TreeEntry),
        Reaches root (TreeEntry.T d) → (k, e) ∈ d.entries →
        ∃ pre post, root.traverse = pre ++ TreeEntry.T d :: post ∧ e ∈ pre) := by
  refine ⟨fun x => ⟨mem_traverse_of_reaches, reaches_of_mem_traverse root x⟩,
    traverse_nodup root [] (new_root_WF hash execOf blobs root h),
    traverse_getLast root, ?_⟩
  intro d k e hR hmem
  obtain ⟨u, v, huv⟩ := traverse_sub_infix hR d rfl
  refine ⟨u ++ traverseList d.entries, v, ?_, ?_⟩
  · rw [huv, traverse_def]
    simp [List.append_assoc]
  · refine List.mem_append.2 (Or.inr ?_)
    cases e with
    | B b => exact mem_entryVisits_of_entry hmem _ (List.mem_singleton.2 rfl)
    | T s => exact mem_entryVisits_of_entry hmem _ (self_mem_traverse s)

/-- The tree built from the single blob "a" (trivial digest and executable
oracle), used to exercise the traversal theorem on a concrete input. -/
def c6Root : Tree :=
  (Tree.new (fun _ => []) (fun _ => false) [Blob.mk [[97]] [] []]).getD
    Tree.empty

theorem tree_traverse_visits_once_witness :
    c6Root.traverse.Nodup
    ∧ c6Root.traverse.getLast? = some (TreeEntry.T c6Root) :=
  ⟨(tree_traverse_visits_once (fun _ => []) (fun _ => false)
      [Blob.mk [[97]] [] []] c6Root rfl).2.1,
   (tree_traverse_visits_once (fun _ => []) (fun _ => false)
      [Blob.mk [[97]] [] []] c6Root rfl).2.2.1⟩

end Grit
